import Mathlib

/-!
Verification of the MMA_News feed-normalization pipeline.

Shallow embedding of `src/fetch_feeds.py` (the only source file of the
repository) and proofs of the frozen claims about it.

The embedding models:
* Python `datetime` values (`PyDT`), including the naive/aware distinction
  and Python's comparison semantics (comparing a naive with an aware
  datetime raises `TypeError`, modelled as `none`);
* the three dated-string parsers used by `parse_date`
  (`datetime.fromisoformat` on strings containing `'T'` after
  `.replace('Z', '+00:00')`, `datetime.strptime` with format
  `'%a, %d %b %Y %H:%M:%S'` after stripping a trailing numeric zone offset,
  and `datetime.strptime` with format `'%Y-%m-%d %H:%M:%S'` on the first
  19 characters);
* `extract_thumbnail`, `clean_description`, `download_image`,
  `fetch_feeds` and `save_articles`;
* CPython's `list.sort(key=..., reverse=True)` for lists of fewer than 64
  elements (the regime of this program: at most 4 sources × 10 entries),
  where timsort degenerates to one `count_run` pass followed by binary
  insertion sort, including the state the list is left in when a
  comparison raises.

External effects (current time, `hash` randomization, the filesystem and
the network used by `download_image`, the feed-fetch capability) are passed
in explicitly as oracles.
-/

/-- Model of a Python `datetime` value: calendar/clock fields plus the
`utcoffset` in seconds (`none` for a naive datetime, i.e. `tzinfo is None`). -/
structure PyDT where
  year : Nat
  month : Nat
  day : Nat
  hour : Nat
  minute : Nat
  second : Nat
  usec : Nat
  tz : Option Int
  deriving DecidableEq, Repr

/-- Gregorian leap year, as in Python's `calendar.isleap` /
`datetime._is_leap`. -/
def isLeap (y : Nat) : Bool :=
  y % 4 == 0 && (y % 100 != 0 || y % 400 == 0)

/-- Days in a month (1-based month), as in `datetime._days_in_month`. -/
def daysInMonth (y m : Nat) : Nat :=
  if m = 2 then (if isLeap y then 29 else 28)
  else if m = 4 ∨ m = 6 ∨ m = 9 ∨ m = 11 then 30
  else 31

/-- Days in the year strictly before month `m` (1-based), as in
`datetime._days_before_month`. -/
def daysBeforeMonth (y m : Nat) : Nat :=
  (match m with
    | 1 => 0 | 2 => 31 | 3 => 59 | 4 => 90 | 5 => 120 | 6 => 151
    | 7 => 181 | 8 => 212 | 9 => 243 | 10 => 273 | 11 => 304 | _ => 334)
  + (if 3 ≤ m ∧ isLeap y then 1 else 0)

/-- Proleptic Gregorian ordinal of a date, as in `datetime.toordinal`
(day 1 = 0001-01-01).  `(y-1)/100 ≤ (y-1)/4`, so the subtraction is exact. -/
def toordinal (y m d : Nat) : Nat :=
  365 * (y - 1) + (y - 1) / 4 + (y - 1) / 400 - (y - 1) / 100
    + daysBeforeMonth y m + d

/-- A datetime reduced to an absolute microsecond count (UTC), used for
Python's comparison of two aware datetimes with distinct offsets. -/
def dtAbsUs (a : PyDT) : Int :=
  ((toordinal a.year a.month a.day : Int) * 86400
    + (a.hour * 3600 + a.minute * 60 + a.second : Nat)) * 1000000
    + (a.usec : Int) - (a.tz.getD 0) * 1000000

/-- Lexicographic order on the field tuple
`(year, month, day, hour, minute, second, usec)`.  This is exactly how
Python compares two naive datetimes, and two aware datetimes whose
offsets are equal. -/
def dtTupleLtP (a b : PyDT) : Prop :=
  a.year < b.year ∨ (a.year = b.year ∧
    (a.month < b.month ∨ (a.month = b.month ∧
      (a.day < b.day ∨ (a.day = b.day ∧
        (a.hour < b.hour ∨ (a.hour = b.hour ∧
          (a.minute < b.minute ∨ (a.minute = b.minute ∧
            (a.second < b.second ∨ (a.second = b.second ∧
              a.usec < b.usec)))))))))))

instance (a b : PyDT) : Decidable (dtTupleLtP a b) := by
  unfold dtTupleLtP; infer_instance

/-- Boolean version of the field-tuple order. -/
def dtTupleLt (a b : PyDT) : Bool := decide (dtTupleLtP a b)

/-- Python's `<` on two datetimes.  `none` models the `TypeError` raised
when exactly one operand is aware.  Two aware operands with equal offsets
are compared field-wise, otherwise by absolute time. -/
def pyLt (a b : PyDT) : Option Bool :=
  match a.tz, b.tz with
  | none, none => some (dtTupleLt a b)
  | some ta, some tb =>
      if ta = tb then some (dtTupleLt a b)
      else some (decide (dtAbsUs a < dtAbsUs b))
  | _, _ => none

theorem dtTupleLt_trans {a b c : PyDT} (h1 : dtTupleLt a b = true)
    (h2 : dtTupleLt b c = true) : dtTupleLt a c = true := by
  simp only [dtTupleLt, decide_eq_true_eq, dtTupleLtP] at *
  omega

theorem dtTupleLt_not_trans {a b c : PyDT} (h1 : dtTupleLt a b = false)
    (h2 : dtTupleLt b c = false) : dtTupleLt a c = false := by
  simp only [dtTupleLt, decide_eq_false_iff_not, dtTupleLtP] at *
  omega

theorem dtTupleLt_lt_of_lt_of_not {a b c : PyDT} (h1 : dtTupleLt a b = true)
    (h2 : dtTupleLt c b = false) : dtTupleLt a c = true := by
  simp only [dtTupleLt, decide_eq_true_eq, decide_eq_false_iff_not,
    dtTupleLtP] at *
  omega

theorem dtTupleLt_asymm {a b : PyDT} (h : dtTupleLt a b = true) :
    dtTupleLt b a = false := by
  simp only [dtTupleLt, decide_eq_true_eq, decide_eq_false_iff_not,
    dtTupleLtP] at *
  omega

/-! ## Character-level string helpers (Python semantics) -/

/-- The ASCII whitespace characters stripped by `str.strip()` and matched
by the regex class `\s`. -/
def isWsCh (c : Char) : Bool :=
  c = ' ' || c = '\t' || c = '\n' || c = '\r' || c = '\x0b' || c = '\x0c'

/-- Python `str.strip()` (ASCII whitespace). -/
def pyStrip (cs : List Char) : List Char :=
  ((cs.dropWhile isWsCh).reverse.dropWhile isWsCh).reverse

/-- Numeric value of a digit character. -/
def digVal (c : Char) : Nat := c.toNat - 48

/-- Exactly two digits. -/
def parse2 (cs : List Char) : Option (Nat × List Char) :=
  match cs with
  | a :: b :: rest =>
      if a.isDigit && b.isDigit then some (10 * digVal a + digVal b, rest)
      else none
  | _ => none

/-- Exactly four digits (the `\d\d\d\d` of `%Y`). -/
def parse4 (cs : List Char) : Option (Nat × List Char) :=
  match cs with
  | a :: b :: c :: d :: rest =>
      if a.isDigit && b.isDigit && c.isDigit && d.isDigit then
        some (1000 * digVal a + 100 * digVal b + 10 * digVal c + digVal d, rest)
      else none
  | _ => none

/-- A 1-or-2-digit `strptime` field such as `3[01]|[12]\d|0[1-9]|[1-9]`:
the ordered regex alternatives reduce to "two digits whose value passes
`ok2`, else one digit whose value passes `ok1`"; both candidates are
produced, in the order the regex engine would try them. -/
def tok21 (ok2 ok1 : Nat → Bool) (cs : List Char) : List (Nat × List Char) :=
  (match cs with
    | a :: b :: rest =>
        if a.isDigit && b.isDigit && ok2 (10 * digVal a + digVal b) then
          [(10 * digVal a + digVal b, rest)]
        else []
    | _ => []) ++
  (match cs with
    | a :: rest => if a.isDigit && ok1 (digVal a) then [(digVal a, rest)] else []
    | [] => [])

/-- The regex `\s+` that `strptime` substitutes for whitespace in the
format string: one or more whitespace characters, consumed greedily
(the following tokens never start with whitespace, so maximal munch is
equivalent to the engine's backtracking here). -/
def ws1 (cs : List Char) : Option (List Char) :=
  match cs with
  | c :: rest => if isWsCh c then some (rest.dropWhile isWsCh) else none
  | [] => none

/-- A literal character of the format string. -/
def lit (c : Char) (cs : List Char) : Option (List Char) :=
  match cs with
  | a :: rest => if a = c then some rest else none
  | [] => none

/-- Case-insensitive three-letter abbreviation (`%a` / `%b`): returns the
1-based index of the match in `table`. -/
def abbrev3 (table : List (List Char)) (cs : List Char) :
    Option (Nat × List Char) :=
  match cs with
  | a :: b :: c :: rest =>
      match table.indexOf? [a.toLower, b.toLower, c.toLower] with
      | some i => some (i + 1, rest)
      | none => none
  | _ => none

/-- C-locale abbreviated weekday names used by `%a`. -/
def wdTable : List (List Char) :=
  [['m','o','n'], ['t','u','e'], ['w','e','d'], ['t','h','u'],
   ['f','r','i'], ['s','a','t'], ['s','u','n']]

/-- C-locale abbreviated month names used by `%b`. -/
def moTable : List (List Char) :=
  [['j','a','n'], ['f','e','b'], ['m','a','r'], ['a','p','r'],
   ['m','a','y'], ['j','u','n'], ['j','u','l'], ['a','u','g'],
   ['s','e','p'], ['o','c','t'], ['n','o','v'], ['d','e','c']]

/-- Try each candidate in order, running the continuation: the ordered
backtracking of the regex engine over the `tok21` alternatives. -/
def firstSome (l : List α) (f : α → Option β) : Option β := l.findSome? f

/-- The validation performed by the `datetime` constructor
(`datetime.strptime` and `datetime.fromisoformat` both end in it):
MINYEAR/MAXYEAR, month, day-of-month against the calendar, and clock
field ranges.  Returns a naive datetime. -/
def mkNaive (y mo d h mi s : Nat) : Option PyDT :=
  if 1 ≤ y && y ≤ 9999 && 1 ≤ mo && mo ≤ 12 && 1 ≤ d &&
      d ≤ daysInMonth y mo && h ≤ 23 && mi ≤ 59 && s ≤ 59 then
    some ⟨y, mo, d, h, mi, s, 0, none⟩
  else none

/-! ## `datetime.strptime` with format `'%a, %d %b %Y %H:%M:%S'` -/

/-- Regex match of `'%a, %d %b %Y %H:%M:%S'` against the whole string
(the engine then checks no unconverted data remains).  Field patterns are
the ones `_strptime` compiles: `%d` = `3[01]|[12]\d|0[1-9]|[1-9]`,
`%H` = `2[0-3]|[0-1]\d|\d`, `%M`/`%S` = `[0-5]\d|\d` (the 60/61 leap-second
alternative of `%S` is rejected later by the constructor, so it is folded
into the bound), `%Y` = `\d\d\d\d`. -/
def rfcMatch (cs : List Char) : Option (Nat × Nat × Nat × Nat × Nat × Nat) :=
  (abbrev3 wdTable cs).bind fun (_, r1) =>
  (lit ',' r1).bind fun r2 =>
  (ws1 r2).bind fun r3 =>
  firstSome (tok21 (fun v => 1 ≤ v && v ≤ 31) (fun v => 1 ≤ v && v ≤ 9) r3)
    fun (d, r4) =>
  (ws1 r4).bind fun r5 =>
  (abbrev3 moTable r5).bind fun (mo, r6) =>
  (ws1 r6).bind fun r7 =>
  (parse4 r7).bind fun (y, r8) =>
  (ws1 r8).bind fun r9 =>
  firstSome (tok21 (fun v => v ≤ 23) (fun _ => true) r9) fun (h, r10) =>
  (lit ':' r10).bind fun r11 =>
  firstSome (tok21 (fun v => v ≤ 59) (fun _ => true) r11) fun (mi, r12) =>
  (lit ':' r12).bind fun r13 =>
  firstSome (tok21 (fun v => v ≤ 59) (fun _ => true) r13) fun (s, r14) =>
  if r14 = [] then some (y, mo, d, h, mi, s) else none

/-- `datetime.strptime(s, '%a, %d %b %Y %H:%M:%S')`, `none` when it
raises `ValueError`.  The result is naive. -/
def rfcParse (cs : List Char) : Option PyDT :=
  (rfcMatch cs).bind fun (y, mo, d, h, mi, s) => mkNaive y mo d h mi s

/-! ## `datetime.strptime` with format `'%Y-%m-%d %H:%M:%S'` -/

/-- Regex match of `'%Y-%m-%d %H:%M:%S'` against the whole string;
`%m` = `1[0-2]|0[1-9]|[1-9]`. -/
def plainMatch (cs : List Char) : Option (Nat × Nat × Nat × Nat × Nat × Nat) :=
  (parse4 cs).bind fun (y, r1) =>
  (lit '-' r1).bind fun r2 =>
  firstSome (tok21 (fun v => 1 ≤ v && v ≤ 12) (fun v => 1 ≤ v && v ≤ 9) r2)
    fun (mo, r3) =>
  (lit '-' r3).bind fun r4 =>
  firstSome (tok21 (fun v => 1 ≤ v && v ≤ 31) (fun v => 1 ≤ v && v ≤ 9) r4)
    fun (d, r5) =>
  (ws1 r5).bind fun r6 =>
  firstSome (tok21 (fun v => v ≤ 23) (fun _ => true) r6) fun (h, r7) =>
  (lit ':' r7).bind fun r8 =>
  firstSome (tok21 (fun v => v ≤ 59) (fun _ => true) r8) fun (mi, r9) =>
  (lit ':' r9).bind fun r10 =>
  firstSome (tok21 (fun v => v ≤ 59) (fun _ => true) r10) fun (s, r11) =>
  if r11 = [] then some (y, mo, d, h, mi, s) else none

/-- `datetime.strptime(s, '%Y-%m-%d %H:%M:%S')`, `none` when it raises. -/
def plainParse (cs : List Char) : Option PyDT :=
  (plainMatch cs).bind fun (y, mo, d, h, mi, s) => mkNaive y mo d h mi s

/-! ## `datetime.fromisoformat` (CPython's pre-3.11 strict grammar) -/

/-- Construction with an explicit offset: field validation as in the
`datetime` constructor. -/
def mkChecked (y mo d h mi s us : Nat) (tz : Option Int) : Option PyDT :=
  if 1 ≤ y && y ≤ 9999 && 1 ≤ mo && mo ≤ 12 && 1 ≤ d &&
      d ≤ daysInMonth y mo && h ≤ 23 && mi ≤ 59 && s ≤ 59 then
    some ⟨y, mo, d, h, mi, s, us, tz⟩
  else none

/-- The `±HH:MM[:SS]` zone suffix of an ISO time string (offset fractions
are not modelled; the `timezone` constructor's strict 24-hour bound is
modelled as per-field bounds). -/
def isoTz (cs : List Char) : Option Int :=
  match cs with
  | sg :: rest =>
      if sg = '+' || sg = '-' then
        (parse2 rest).bind fun (th, r1) =>
        (lit ':' r1).bind fun r2 =>
        (parse2 r2).bind fun (tm, r3) =>
        (match r3 with
          | [] => some 0
          | ':' :: r4 =>
              (parse2 r4).bind fun (ts, r5) =>
              if r5 = [] && ts ≤ 59 then some (ts : Int) else none
          | _ => none).bind fun tsec =>
        if th ≤ 23 && tm ≤ 59 then
          let off : Int := (th : Int) * 3600 + (tm : Int) * 60 + tsec
          some (if sg = '-' then -off else off)
        else none
      else none
  | [] => none

/-- The fractional-second part: a dot followed by exactly 3 or 6 digits
(any other digit-run length raises), yielding microseconds.  Returns the
remainder, which must be empty or a zone suffix. -/
def isoFrac (cs : List Char) : Option (Nat × List Char) :=
  match cs with
  | '.' :: rest =>
      let run := rest.takeWhile Char.isDigit
      let v := run.foldl (fun acc c => 10 * acc + digVal c) 0
      if run.length = 3 then some (1000 * v, rest.drop 3)
      else if run.length = 6 then some (v, rest.drop 6)
      else none
  | _ => none

/-- The time-of-day part `HH[:MM[:SS[.fff[fff]]]]` with optional trailing
zone suffix, as `_parse_isoformat_time` accepts it. -/
def isoTime (cs : List Char) : Option (Nat × Nat × Nat × Nat × Option Int) :=
  (parse2 cs).bind fun (h, r1) =>
  match r1 with
  | [] => some (h, 0, 0, 0, none)
  | ':' :: r2 =>
      (parse2 r2).bind fun (mi, r3) =>
      match r3 with
      | [] => some (h, mi, 0, 0, none)
      | ':' :: r4 =>
          (parse2 r4).bind fun (s, r5) =>
          match r5 with
          | [] => some (h, mi, s, 0, none)
          | '.' :: r6 =>
              (isoFrac ('.' :: r6)).bind fun (us, r7) =>
              match r7 with
              | [] => some (h, mi, s, us, none)
              | _ => (isoTz r7).map fun off => (h, mi, s, us, some off)
          | _ => (isoTz r5).map fun off => (h, mi, s, 0, some off)
      | _ => (isoTz r3).map fun off => (h, mi, 0, 0, some off)
  | _ => (isoTz r1).map fun off => (h, 0, 0, 0, some off)

/-- `datetime.fromisoformat`: `YYYY-MM-DD`, optionally followed by one
separator character (any character — the code always passes `'T'` inputs)
and a time-of-day part.  `none` when it raises `ValueError`.

This is the documented, version-stable grammar (the inverse of
`datetime.isoformat`, guaranteed by every Python since 3.7, and the one
the code's manual `'Z'` replacement is written for).  Python ≥ 3.11
additionally accepts basic-format variants (`20250105T120000`, `+HHMM`
offsets, free-length second fractions); none of the properties below
depend on such inputs. -/
def isoCore (cs : List Char) : Option PyDT :=
  match cs with
  | y1 :: y2 :: y3 :: y4 :: c5 :: m1 :: m2 :: c8 :: d1 :: d2 :: rest =>
      if y1.isDigit && y2.isDigit && y3.isDigit && y4.isDigit &&
          c5 = '-' && m1.isDigit && m2.isDigit && c8 = '-' &&
          d1.isDigit && d2.isDigit then
        let y := 1000 * digVal y1 + 100 * digVal y2 + 10 * digVal y3 + digVal y4
        let mo := 10 * digVal m1 + digVal m2
        let d := 10 * digVal d1 + digVal d2
        match rest with
        | [] => mkChecked y mo d 0 0 0 0 none
        | _sep :: t =>
            (isoTime t).bind fun (h, mi, s, us, off) =>
            mkChecked y mo d h mi s us off
      else none
  | _ => none

/-- Python `str.replace('Z', '+00:00')` (all occurrences). -/
def replZ (cs : List Char) : List Char :=
  cs.foldr
    (fun c acc =>
      if c = 'Z' then '+' :: '0' :: '0' :: ':' :: '0' :: '0' :: acc
      else c :: acc) []

/-- The first branch of `parse_date`: attempted only when `'T'` occurs in
the raw string; `none` both when the guard fails and when `fromisoformat`
raises (the bare `except` swallows the error). -/
def isoTry (cs : List Char) : Option PyDT :=
  if cs.contains 'T' then isoCore (replZ cs) else none

/-- `re.sub(r'\s[+-]\d{4}$', '', s)`: drop a trailing
whitespace+sign+4-digit zone offset, if present. -/
def subOffset (cs : List Char) : List Char :=
  match cs.reverse with
  | d4 :: d3 :: d2 :: d1 :: sg :: w :: rest =>
      if d4.isDigit && d3.isDigit && d2.isDigit && d1.isDigit &&
          (sg = '+' || sg = '-') && isWsCh w then
        rest.reverse
      else cs
  | _ => cs

/-- `parse_date` from `src/fetch_feeds.py`.  `now` is the value
`datetime.now(timezone.utc)` would return (an aware UTC datetime); the
function is total — every failure path falls through to `now`. -/
def parse_date (now : PyDT) (str : String) : PyDT :=
  let cs := str.toList
  if cs = [] then now
  else
    match isoTry cs with
    | some dt => dt
    | none =>
        match rfcParse (subOffset (pyStrip cs)) with
        | some dt => dt
        | none =>
            match plainParse (cs.take 19) with
            | some dt => dt
            | none => now

/-! ## CPython `list.sort(key=..., reverse=True)` for short lists

For fewer than 64 elements timsort computes `minrun = n`, finds one
natural run (`count_run`, reversing it in place if strictly descending)
and extends it over the whole array by binary insertion (`binarysort`).
With `reverse=True` the decorated array is reversed before sorting and
reversed back on every exit path, including the failing one.  A raising
comparison aborts the sort (`Bool` result `false`), leaving the array in
its current, possibly partially sorted, state — keys are all computed
before any comparison, so the key function itself never runs during the
permutation phase. -/

section PySort

variable {K A : Type}

/-- The binary search of CPython's `binarysort`: locate the insertion
point of `pivot` in the sorted prefix `pref` between `l` and `r`.
`none` models a raising comparison.  `fuel ≥ r - l` suffices; it is
structural so that concrete runs reduce in the kernel. -/
def binSearchGo (ltq : K → K → Option Bool) (pref : List (K × A)) (pivot : K) :
    Nat → Nat → Nat → Option Nat
  | 0, l, _ => some l
  | fuel + 1, l, r =>
      if l < r then
        match pref.get? (l + (r - l) / 2) with
        | none => none
        | some y =>
            match ltq pivot y.1 with
            | none => none
            | some true => binSearchGo ltq pref pivot fuel l (l + (r - l) / 2)
            | some false =>
                binSearchGo ltq pref pivot fuel (l + (r - l) / 2 + 1) r
      else some l

/-- One binary insertion into the sorted prefix; the element is only
moved after the search finishes, so a raising comparison leaves the
array untouched for this element. -/
def binsertOne (ltq : K → K → Option Bool) (pref : List (K × A)) (x : K × A) :
    Option (List (K × A)) :=
  (binSearchGo ltq pref x.1 pref.length 0 pref.length).map fun p =>
    pref.take p ++ x :: pref.drop p

/-- The `binarysort` loop extending the sorted prefix over the rest of
the array; on a raising comparison the current state is returned with a
`false` flag. -/
def binsortLoop (ltq : K → K → Option Bool) :
    List (K × A) → List (K × A) → Bool × List (K × A)
  | pref, [] => (true, pref)
  | pref, x :: rest =>
      match binsertOne ltq pref x with
      | none => (false, pref ++ x :: rest)
      | some pref' => binsortLoop ltq pref' rest

/-- Length of the weakly ascending continuation (`count_run`'s loop:
extend while not `ISLT(cur, prev)`); `none` on a raising comparison. -/
def ascExtend (ltq : K → K → Option Bool) (prev : K) :
    List (K × A) → Option Nat
  | [] => some 0
  | y :: ys =>
      match ltq y.1 prev with
      | none => none
      | some true => some 0
      | some false => (ascExtend ltq y.1 ys).map (· + 1)

/-- Length of the strictly descending continuation. -/
def descExtend (ltq : K → K → Option Bool) (prev : K) :
    List (K × A) → Option Nat
  | [] => some 0
  | y :: ys =>
      match ltq y.1 prev with
      | none => none
      | some true => (descExtend ltq y.1 ys).map (· + 1)
      | some false => some 0

/-- CPython's `count_run`: length of the maximal initial run; a strictly
descending run is reversed in place (the only mutation), a raising
comparison aborts before any mutation. -/
def countRun (ltq : K → K → Option Bool) :
    List (K × A) → Option (Nat × List (K × A))
  | [] => some (0, [])
  | [x] => some (1, [x])
  | x0 :: x1 :: rest =>
      match ltq x1.1 x0.1 with
      | none => none
      | some true =>
          (descExtend ltq x1.1 rest).map fun k =>
            (2 + k, ((x0 :: x1 :: rest).take (2 + k)).reverse
              ++ (x0 :: x1 :: rest).drop (2 + k))
      | some false =>
          (ascExtend ltq x1.1 rest).map fun k => (2 + k, x0 :: x1 :: rest)

/-- `list.sort` on a decorated array of fewer than 64 elements: one
`count_run`, then `binarysort` over the remainder.  The `Bool` is `false`
when a comparison raised; the list is then the state the failed sort left
behind. -/
def listsortSmall (ltq : K → K → Option Bool) (l : List (K × A)) :
    Bool × List (K × A) :=
  if l.length < 2 then (true, l)
  else
    match countRun ltq l with
    | none => (false, l)
    | some (run, l1) => binsortLoop ltq (l1.take run) (l1.drop run)

/-- `l.sort(key=key, reverse=True)`: decorate with precomputed keys,
reverse, sort ascending, and reverse back on every exit path. -/
def pySortKeyRev (ltq : K → K → Option Bool) (key : A → K) (l : List A) :
    Bool × List A :=
  let keyed := (l.map fun a => (key a, a)).reverse
  let res := listsortSmall ltq keyed
  (res.1, (res.2.reverse).map Prod.snd)

end PySort

/-! ## `extract_thumbnail` -/

/-- A feedparser dictionary (e.g. one `media_thumbnail` element): string
keys and values; `get?` is `dict.get`, and `(get? k).isSome` is `k in d`. -/
structure FPDict where
  pairs : List (String × String)
  deriving DecidableEq

def FPDict.get? (d : FPDict) (k : String) : Option String :=
  (d.pairs.find? (fun p => p.1 == k)).map Prod.snd

/-- A feedparser entry: `none` in a field models a missing attribute
(`hasattr` false) as well as `entry.get` returning no value. -/
structure Entry where
  title : Option String := none
  link : Option String := none
  summary : Option String := none
  published : Option String := none
  updated : Option String := none
  media_thumbnail : Option (List FPDict) := none
  media_content : Option (List FPDict) := none
  links : Option (List FPDict) := none
  deriving DecidableEq

/-- Python `str.startswith`. -/
def strStarts (s pre : String) : Bool := pre.toList.isPrefixOf s.toList

/-- Try to match `src="([^">]+)"` at this position (used after the greedy
`[^>]+` has consumed some characters). -/
def imgCapAt (cs : List Char) : Option (List Char) :=
  if ('s' :: 'r' :: 'c' :: '=' :: '"' :: []).isPrefixOf cs then
    let rest := cs.drop 5
    let cap := rest.takeWhile (fun c => c ≠ '"' && c ≠ '>')
    if 0 < cap.length then
      match rest.drop cap.length with
      | '"' :: _ => some cap
      | _ => none
    else none
  else none

/-- Greedy `[^>]+` with backtracking: try consuming `j` characters, from
the longest run of non-`'>'` characters downwards (at least one). -/
def imgTryLens (afterImg : List Char) : Nat → Option (List Char)
  | 0 => none
  | j + 1 =>
      match imgCapAt (afterImg.drop (j + 1)) with
      | some cap => some cap
      | none => imgTryLens afterImg j

/-- `re.search(r'<img[^>]+src="([^">]+)"', s)`: leftmost match wins; at a
given start the greedy `[^>]+` backtracks from the longest candidate. -/
def imgSearch : Nat → List Char → Option (List Char)
  | _, [] => none
  | 0, _ => none
  | fuel + 1, cs =>
      match cs with
      | [] => none
      | _ :: rest =>
          if ('<' :: 'i' :: 'm' :: 'g' :: []).isPrefixOf cs then
            let afterImg := cs.drop 4
            match imgTryLens afterImg (afterImg.takeWhile (· ≠ '>')).length with
            | some cap => some cap
            | none => imgSearch fuel rest
          else imgSearch fuel rest

/-- `extract_thumbnail` from `src/fetch_feeds.py`: the four signals in
priority order.  The `hasattr`/truthiness gates collapse into `getD []`
(an absent attribute and a present-but-empty list behave identically),
and a loop that finds no matching element falls through to the next
branch — except the `links` branch, which returns `link.get('href')`
directly (possibly `None`) once a link with an image type is found. -/
def extract_thumbnail (e : Entry) : Option String :=
  match (e.media_thumbnail.getD []).findSome? (fun th => th.get? "url") with
  | some u => some u
  | none =>
  match (e.media_content.getD []).findSome?
      (fun c => if c.get? "medium" == some "image" then c.get? "url" else none) with
  | some u => some u
  | none =>
  match (e.links.getD []).find?
      (fun lk => strStarts ((lk.get? "type").getD "") "image") with
  | some lk => lk.get? "href"
  | none =>
  match e.summary with
  | some s =>
      if s.toList ≠ [] then (imgSearch s.toList.length s.toList).map String.mk
      else none
  | none => none

/-! ## `clean_description` -/

/-- Find the first occurrence of `pat` and return the suffix after it
(the lazy `.*?` of `<script[^>]*>.*?</script>` stops at the first
closing tag). -/
def dropThrough (pat : List Char) : Nat → List Char → Option (List Char)
  | _, [] => none
  | 0, _ => none
  | fuel + 1, cs =>
      match cs with
      | [] => none
      | _ :: rest =>
          if pat.isPrefixOf cs then some (cs.drop pat.length)
          else dropThrough pat fuel rest

/-- `re.sub(r'<script[^>]*>.*?</script>', '', s, flags=DOTALL)` (and the
`style` variant): scanning left to right, a match needs the open tag, any
non-`'>'` run, `'>'`, then the nearest closing tag; the whole match is
deleted and scanning resumes after it. -/
def removeBlocks (openT closeT : List Char) : Nat → List Char → List Char
  | 0, cs => cs
  | fuel + 1, cs =>
      match cs with
      | [] => []
      | c :: rest =>
          if openT.isPrefixOf cs then
            let after := cs.drop openT.length
            let inTag := after.takeWhile (· ≠ '>')
            match after.drop inTag.length with
            | '>' :: body =>
                match dropThrough closeT body.length body with
                | some rest2 => removeBlocks openT closeT fuel rest2
                | none => c :: removeBlocks openT closeT fuel rest
            | _ => c :: removeBlocks openT closeT fuel rest
          else c :: removeBlocks openT closeT fuel rest

/-- `re.sub(r'<[^>]+>', '', s)`: delete every `<`…`>` group with at least
one inner character. -/
def stripTags : Nat → List Char → List Char
  | 0, cs => cs
  | fuel + 1, cs =>
      match cs with
      | [] => []
      | '<' :: rest =>
          let inTag := rest.takeWhile (· ≠ '>')
          match rest.drop inTag.length with
          | '>' :: after =>
              if 0 < inTag.length then stripTags fuel after
              else '<' :: stripTags fuel rest
          | _ => '<' :: stripTags fuel rest
      | c :: rest => c :: stripTags fuel rest

/-- Named entities recognized by the `html.unescape` model: the model is
restricted to the common named entities and decimal references — the code
under test never depends on the full HTML5 table. -/
def entTable : List (List Char × Char) :=
  [(['a','m','p',';'], '&'), (['l','t',';'], '<'), (['g','t',';'], '>'),
   (['q','u','o','t',';'], '"'), (['a','p','o','s',';'], Char.ofNat 39),
   (['#','3','9',';'], Char.ofNat 39), (['n','b','s','p',';'], Char.ofNat 160)]

/-- Decimal numeric character reference after `&#`. -/
def numEnt (cs : List Char) : Option (Char × List Char) :=
  match cs with
  | '#' :: rest =>
      let ds := rest.takeWhile Char.isDigit
      if 0 < ds.length then
        let v := ds.foldl (fun acc c => 10 * acc + digVal c) 0
        if v.isValidChar then
          match rest.drop ds.length with
          | ';' :: r2 => some (Char.ofNat v, r2)
          | r2 => some (Char.ofNat v, r2)
        else none
      else none
  | _ => none

/-- Model of `html.unescape` (restricted as described at `entTable`). -/
def unescape : Nat → List Char → List Char
  | 0, cs => cs
  | fuel + 1, cs =>
      match cs with
      | [] => []
      | '&' :: rest =>
          match entTable.findSome?
              (fun p => if p.1.isPrefixOf rest then some (p.2, rest.drop p.1.length)
                        else none) with
          | some (ch, r2) => ch :: unescape fuel r2
          | none =>
              match numEnt rest with
              | some (ch, r2) => ch :: unescape fuel r2
              | none => '&' :: unescape fuel rest
      | c :: rest => c :: unescape fuel rest

/-- `re.sub(r'\s+', ' ', s)`: collapse whitespace runs to single spaces. -/
def collapseWs : Nat → List Char → List Char
  | 0, cs => cs
  | fuel + 1, cs =>
      match cs with
      | [] => []
      | c :: rest =>
          if isWsCh c then ' ' :: collapseWs fuel (rest.dropWhile isWsCh)
          else c :: collapseWs fuel rest

/-- `clean_description` from `src/fetch_feeds.py`: script/style blocks
(with their contents) are removed first, then the remaining tags, then
entities are decoded, whitespace is collapsed and the ends trimmed.
Empty input returns the empty string. -/
def clean_description (s : String) : String :=
  let cs := s.toList
  if cs = [] then ""
  else
    let t1 := removeBlocks ['<','s','c','r','i','p','t'] ['<','/','s','c','r','i','p','t','>'] cs.length cs
    let t2 := removeBlocks ['<','s','t','y','l','e'] ['<','/','s','t','y','l','e','>'] t1.length t1
    let t3 := stripTags t2.length t2
    let t4 := unescape t3.length t3
    String.mk (pyStrip (collapseWs t4.length t4))

/-! ## `download_image`, `fetch_feeds`, `save_articles` -/

/-- Outcome of `requests.get(url, timeout=10)`: a completed response with
a status code, or a raised exception (timeout, connection error, …). -/
inductive NetResult
  | exc
  | resp (status : Nat)
  deriving DecidableEq

/-- One raw entry as handed to the per-entry loop body: `raises` models
an entry whose processing raises (the `except` in the loop catches it and
skips the entry). -/
inductive PEntry
  | raises
  | ok (e : Entry)

/-- Outcome of `feedparser.parse(url)` for one source: a raised exception,
or a parsed feed with its bozo flag and entries. -/
inductive FetchResult
  | exc
  | parsed (bozo : Bool) (entries : List PEntry)

/-- The ambient effects of a run: the current UTC time, Python's
(run-randomized) string `hash`, the local image cache, and the network. -/
structure Env where
  now : PyDT
  hashOf : String → Int
  fileExists : String → Bool
  net : String → NetResult

/-- Split at the first occurrence of `pat`: `(before, after)`. -/
def splitOnSub (pat : List Char) : Nat → List Char → Option (List Char × List Char)
  | _, [] => none
  | 0, _ => none
  | fuel + 1, cs =>
      match cs with
      | [] => none
      | c :: rest =>
          if pat.isPrefixOf cs then some ([], cs.drop pat.length)
          else (splitOnSub pat fuel rest).map fun p => (c :: p.1, p.2)

/-- `urlparse(url).path` for the URL shapes this program meets: strip the
fragment and query, and for `scheme://netloc/...` URLs the scheme and
network location; otherwise the remainder is the path (a simplification
of `urllib.parse` adequate for absolute HTTP(S) URLs). -/
def urlPath (u : String) : String :=
  let cs := (u.toList.takeWhile (· ≠ '#')).takeWhile (· ≠ '?')
  match splitOnSub [':', '/', '/'] cs.length cs with
  | some (sch, rest) =>
      if sch ≠ [] && (sch.head?.elim false Char.isAlpha) &&
          sch.all (fun c => c.isAlphanum || c = '+' || c = '-' || c = '.') then
        String.mk (rest.dropWhile (· ≠ '/'))
      else String.mk cs
  | none => String.mk cs

/-- `path.split('/')[-1]`. -/
def lastSeg (cs : List Char) : List Char :=
  (cs.reverse.takeWhile (· ≠ '/')).reverse

/-- The filename `download_image` derives from the URL: last path
segment, or `image_{hash(url)}.jpg` when that segment is empty or
carries no dot. -/
def imgFilename (env : Env) (url : String) : String :=
  let f := lastSeg (urlPath url).toList
  if f.isEmpty || !(f.contains '.') then
    "image_" ++ toString (env.hashOf url) ++ ".jpg"
  else String.mk f

/-- `download_image` from `src/fetch_feeds.py`.  Empty URL → `None`.  A
cached file, or any completed response — whatever its status code — yields
the local relative path `./images/<filename>`; only a raised exception
yields `None`.  (Directory creation and the file write are modelled as
infallible.) -/
def download_image (env : Env) (url : String) : Option String :=
  if url = "" then none
  else if env.fileExists ("docs/images/" ++ imgFilename env url) then
    some ("./images/" ++ imgFilename env url)
  else
    match env.net url with
    | .exc => none
    | .resp _ => some ("./images/" ++ imgFilename env url)

/-- Zero-padded decimal fields of `datetime.isoformat`. -/
def pad2 (n : Nat) : String :=
  if n < 10 then "0" ++ toString n else toString n

def pad4 (n : Nat) : String :=
  if n < 10 then "000" ++ toString n
  else if n < 100 then "00" ++ toString n
  else if n < 1000 then "0" ++ toString n
  else toString n

def pad6 (n : Nat) : String :=
  if n < 10 then "00000" ++ toString n
  else if n < 100 then "0000" ++ toString n
  else if n < 1000 then "000" ++ toString n
  else if n < 10000 then "00" ++ toString n
  else if n < 100000 then "0" ++ toString n
  else toString n

/-- `datetime.isoformat()` on the values this program produces (aware UTC
`now`, whole-minute offsets): microseconds are printed only when nonzero,
the offset as `±HH:MM`. -/
def isoformatUTC (dt : PyDT) : String :=
  pad4 dt.year ++ "-" ++ pad2 dt.month ++ "-" ++ pad2 dt.day ++ "T" ++
  pad2 dt.hour ++ ":" ++ pad2 dt.minute ++ ":" ++ pad2 dt.second ++
  (if dt.usec = 0 then "" else "." ++ pad6 dt.usec) ++
  (match dt.tz with
    | none => ""
    | some off =>
        (if off < 0 then "-" else "+") ++
        pad2 (off.natAbs / 3600) ++ ":" ++ pad2 (off.natAbs % 3600 / 60))

/-- The normalized article record built by the per-entry loop body. -/
structure Article where
  title : String
  link : String
  description : String
  pubDate : String
  source : String
  thumbnail : Option String
  deriving DecidableEq, Repr

/-- `entry.get('published') or entry.get('updated') or
datetime.now(timezone.utc).isoformat()` — `or` skips missing values and
empty strings alike. -/
def pubDateOf (env : Env) (e : Entry) : String :=
  let p := e.published.getD ""
  if p ≠ "" then p
  else
    let u := e.updated.getD ""
    if u ≠ "" then u else isoformatUTC env.now

/-- The article dictionary built for one entry (the loop body of
`fetch_feeds` between the `try` and the append). -/
def buildArticle (env : Env) (name : String) (e : Entry) : Article :=
  let image_url := extract_thumbnail e
  let local_image :=
    match image_url with
    | some u => if u ≠ "" then download_image env u else none
    | none => none
  { title := e.title.getD "No title"
    link := e.link.getD "#"
    description := clean_description (e.summary.getD "")
    pubDate := pubDateOf env e
    source := name
    thumbnail := local_image }

/-- The configured feed sources. -/
def RSS_FEEDS : List (String × String) :=
  [("MMA Junkie", "https://mmajunkie.usatoday.com/feed"),
   ("Lowkick MMA", "https://lowkickmma.com/feed"),
   ("BJPENN", "https://bjpenn.com/feed"),
   ("Sherdog", "https://sherdog.com/rss/news.xml")]

/-- The per-source entry loop: `feed.entries[:10]`, each entry built into
an article, an entry whose processing raises is skipped and the loop
continues. -/
def processEntries (env : Env) (name : String) (pes : List PEntry) :
    List Article :=
  (pes.take 10).filterMap fun pe =>
    match pe with
    | .raises => none
    | .ok e => some (buildArticle env name e)

/-- `fetch_feeds` from `src/fetch_feeds.py`: iterate the configured
sources in order; a source whose fetch/parse raises contributes nothing
(the `except` continues with the next source); the bozo flag only prints
a warning.  Total: the run itself never raises. -/
def fetch_feeds (env : Env) (fetch : String → FetchResult) : List Article :=
  (RSS_FEEDS.map fun p =>
    match fetch p.2 with
    | .exc => []
    | .parsed _ pes => processEntries env p.1 pes).flatten

/-- The JSON document `save_articles` writes. -/
structure Output where
  generated_at : String
  article_count : Nat
  articles : List Article
  deriving DecidableEq

/-- The sort key of the ranking step. -/
def sortKey (env : Env) (a : Article) : PyDT := parse_date env.now a.pubDate

/-- `save_articles` from `src/fetch_feeds.py`: empty input returns early
and writes nothing (`none`); otherwise the list is sorted best-effort
(a raising comparison is caught, keeping whatever state the aborted sort
left), truncated to 30, and the document is produced. -/
def save_articles (env : Env) (articles : List Article) : Option Output :=
  if articles = [] then none
  else
    some { generated_at := isoformatUTC env.now
           article_count :=
             ((pySortKeyRev pyLt (sortKey env) articles).2.take 30).length
           articles := (pySortKeyRev pyLt (sortKey env) articles).2.take 30 }

/-- Modelled from the spec: `ArticleRanker.rank(articles, maxCount)` with
a configurable cap.  The repository realizes the ranker only inside
`save_articles`, with the cap hard-coded to 30; the sorting step is the
embedding of `articles.sort(key=lambda x: parse_date(x['pubDate']),
reverse=True)` and the truncation of `articles[:maxCount]`. -/
def rank (env : Env) (articles : List Article) (maxCount : Nat) :
    List Article :=
  (pySortKeyRev pyLt (sortKey env) articles).2.take maxCount

/-! ## Concrete anchors and helper lemmas -/

/-- A fixed value for `datetime.now(timezone.utc)` in concrete instances:
aware, offset 0. -/
def nowUTC : PyDT := ⟨2025, 6, 1, 12, 0, 0, 0, some 0⟩

/-- Successful construction by the `datetime` constructor without an
explicit offset yields a naive value. -/
theorem mkNaive_tz {y mo d h mi s : Nat} {dt : PyDT}
    (hm : mkNaive y mo d h mi s = some dt) : dt.tz = none := by
  unfold mkNaive at hm
  split at hm
  · cases hm; rfl
  · cases hm

/-- `strptime` with the RFC-822-style format always returns a naive
datetime. -/
theorem rfcParse_tz {cs : List Char} {dt : PyDT}
    (h : rfcParse cs = some dt) : dt.tz = none := by
  unfold rfcParse at h
  cases hm : rfcMatch cs with
  | none => rw [hm] at h; cases h
  | some v =>
      rw [hm] at h
      obtain ⟨y, mo, d, hh, mi, s⟩ := v
      exact mkNaive_tz h

/-- `strptime` with the plain format always returns a naive datetime. -/
theorem plainParse_tz {cs : List Char} {dt : PyDT}
    (h : plainParse cs = some dt) : dt.tz = none := by
  unfold plainParse at h
  cases hm : plainMatch cs with
  | none => rw [hm] at h; cases h
  | some v =>
      rw [hm] at h
      obtain ⟨y, mo, d, hh, mi, s⟩ := v
      exact mkNaive_tz h

/-- The shape matched by the zone-offset pattern `[+-]\d{4}`. -/
def offShape (o : List Char) : Prop :=
  ∃ sg d1 d2 d3 d4, o = [sg, d1, d2, d3, d4] ∧ (sg = '+' ∨ sg = '-') ∧
    d1.isDigit = true ∧ d2.isDigit = true ∧ d3.isDigit = true ∧
    d4.isDigit = true

/-- `re.sub(r'\s[+-]\d{4}$', '', ...)` removes exactly the trailing
space-plus-offset from `core ++ ' ' ++ offset`. -/
theorem subOffset_append {core o : List Char} (ho : offShape o) :
    subOffset (core ++ ' ' :: o) = core := by
  obtain ⟨sg, d1, d2, d3, d4, rfl, hsg, h1, h2, h3, h4⟩ := ho
  have hrev : (core ++ ' ' :: [sg, d1, d2, d3, d4]).reverse
      = d4 :: d3 :: d2 :: d1 :: sg :: ' ' :: core.reverse := by
    simp
  unfold subOffset
  rw [hrev]
  have hsg' : (sg = '+' || sg = '-') = true := by
    rcases hsg with h | h <;> simp [h]
  simp [h1, h2, h3, h4, hsg', isWsCh]

/-- Empty input falls back to the current time. -/
theorem parse_date_empty (now : PyDT) : parse_date now "" = now := rfl

/-- When all three parse attempts fail, `parse_date` falls back to the
current time. -/
theorem parse_date_fallback (now : PyDT) (s : String)
    (h1 : isoTry s.toList = none)
    (h2 : rfcParse (subOffset (pyStrip s.toList)) = none)
    (h3 : plainParse (s.toList.take 19) = none) :
    parse_date now s = now := by
  by_cases h4 : s.toList = []
  · have : s = "" := by
      cases s with
      | mk data => simp only [String.toList] at h4; simp [h4]
    rw [this]; rfl
  · simp only [String.toList] at h1 h2 h3 h4
    unfold parse_date
    simp only [String.toList, if_neg h4, h1, h2, h3]

/-- C2: `DateNormalizer.parse` (`parse_date`) is total and never raises —
in the embedding it is a total function by construction; every code path
returns a timestamp.  Empty input returns the current time (UTC), as does
any input on which all three parse attempts fail; the three supported
formats (ISO-8601 with trailing `Z`, RFC-822 with numeric zone offset,
`YYYY-MM-DD HH:MM:SS`) each return a parsed timestamp. -/
theorem claim_C2_parse_total (now : PyDT) :
    parse_date now "" = now ∧
    (∀ s : String, isoTry s.toList = none →
      rfcParse (subOffset (pyStrip s.toList)) = none →
      plainParse (s.toList.take 19) = none →
      parse_date now s = now) ∧
    parse_date now "2025-01-05T12:30:00Z" = ⟨2025, 1, 5, 12, 30, 0, 0, some 0⟩ ∧
    parse_date now "Wed, 01 Jan 2025 10:00:00 +0000"
      = ⟨2025, 1, 1, 10, 0, 0, 0, none⟩ ∧
    parse_date now "2025-01-05 12:30:00" = ⟨2025, 1, 5, 12, 30, 0, 0, none⟩ ∧
    parse_date now "totally not a date" = now := by
  exact ⟨parse_date_empty now, parse_date_fallback now, rfl, rfl, rfl, rfl⟩

/-- Witness for C2 at concrete inputs: the fallback hypotheses hold, and
the fallback yields the current time. -/
theorem claim_C2_parse_total_witness :
    parse_date nowUTC "" = nowUTC ∧ parse_date nowUTC "garbage" = nowUTC := by
  refine ⟨(claim_C2_parse_total nowUTC).1, ?_⟩
  exact (claim_C2_parse_total nowUTC).2.1 "garbage" (by decide) (by decide)
    (by decide)

/-- Counterexample to C1: `parse_date` on an RFC-822 input returns a
*naive* timestamp (no timezone at all), while the empty-input fallback is
aware UTC — and Python refuses to compare the two (`pyLt … = none`
models the raised `TypeError`), so results of `parse` are not all
UTC-aware and not mutually comparable. -/
theorem claim_C1_counterexample :
    (parse_date nowUTC "Wed, 01 Jan 2025 10:00:00 +0000").tz = none ∧
    (parse_date nowUTC "").tz = some 0 ∧
    pyLt (parse_date nowUTC "Wed, 01 Jan 2025 10:00:00 +0000")
      (parse_date nowUTC "") = none := by
  exact ⟨rfl, rfl, rfl⟩

/-- C1 as amended: only the fallback paths (empty input, total parse
failure) are guaranteed aware UTC; the RFC-822 branch and the plain
`YYYY-MM-DD HH:MM:SS` branch return naive timestamps (implicitly treated
as UTC), and a naive result is not comparable with an aware one. -/
theorem claim_C1_utc_amended (now : PyDT) (hnow : now.tz = some 0) :
    (parse_date now "").tz = some 0 ∧
    (∀ s : String, isoTry s.toList = none →
      rfcParse (subOffset (pyStrip s.toList)) = none →
      plainParse (s.toList.take 19) = none →
      (parse_date now s).tz = some 0) ∧
    (∀ (s : String) (dt : PyDT), s.toList ≠ [] → isoTry s.toList = none →
      rfcParse (subOffset (pyStrip s.toList)) = some dt →
      (parse_date now s).tz = none) ∧
    (∀ (s : String) (dt : PyDT), s.toList ≠ [] → isoTry s.toList = none →
      rfcParse (subOffset (pyStrip s.toList)) = none →
      plainParse (s.toList.take 19) = some dt →
      (parse_date now s).tz = none) ∧
    (∀ d1 d2 : PyDT, d1.tz = none → d2.tz = some 0 → pyLt d1 d2 = none) := by
  refine ⟨by rw [parse_date_empty now]; exact hnow, ?_, ?_, ?_, ?_⟩
  · intro s h1 h2 h3
    rw [parse_date_fallback now s h1 h2 h3]; exact hnow
  · intro s dt h4 h1 h2
    simp only [String.toList] at h1 h2 h4
    unfold parse_date
    simp only [String.toList, if_neg h4, h1, h2]
    exact rfcParse_tz h2
  · intro s dt h4 h1 h2 h3
    simp only [String.toList] at h1 h2 h3 h4
    unfold parse_date
    simp only [String.toList, if_neg h4, h1, h2, h3]
    exact plainParse_tz h3
  · intro d1 d2 e1 e2
    unfold pyLt
    rw [e1, e2]

/-- Witness for the amended C1: a concrete RFC-822 input lands in the
naive branch, and a concrete aware/naive pair is incomparable. -/
theorem claim_C1_utc_amended_witness :
    (parse_date nowUTC "Thu, 02 Jan 2025 08:30:00 -0800").tz = none ∧
    pyLt ⟨2025, 1, 1, 0, 0, 0, 0, none⟩ nowUTC = none := by
  refine ⟨?_, ?_⟩
  · exact (claim_C1_utc_amended nowUTC rfl).2.2.1
      "Thu, 02 Jan 2025 08:30:00 -0800" ⟨2025, 1, 2, 8, 30, 0, 0, none⟩
      (by decide) (by decide) (by decide)
  · exact (claim_C1_utc_amended nowUTC rfl).2.2.2.2 _ _ rfl rfl

/-- C8: for an RFC-822-style date string handled by the RFC-822 branch,
the trailing 4-digit zone offset is stripped before parsing and never
applied: appending *any* two offsets to the same core gives the same
(naive) timestamp, whose clock fields are the literal fields `strptime`
read from the core.  The hypotheses pin down the code path: the string is
not empty, the ISO branch declines it, `strip()` leaves it unchanged, the
suffix has the `[+-]\d{4}` shape, and `strptime` accepts the core. -/
theorem claim_C8_offset_discarded (now : PyDT) (core : String)
    (o1 o2 : List Char) (dt : PyDT)
    (ho1 : offShape o1) (ho2 : offShape o2)
    (hs1 : pyStrip (core.toList ++ ' ' :: o1) = core.toList ++ ' ' :: o1)
    (hs2 : pyStrip (core.toList ++ ' ' :: o2) = core.toList ++ ' ' :: o2)
    (hi1 : isoTry (core.toList ++ ' ' :: o1) = none)
    (hi2 : isoTry (core.toList ++ ' ' :: o2) = none)
    (hrfc : rfcParse core.toList = some dt) :
    parse_date now (String.mk (core.toList ++ ' ' :: o1)) = dt ∧
    parse_date now (String.mk (core.toList ++ ' ' :: o2)) = dt ∧
    dt.tz = none := by
  have key : ∀ o : List Char, offShape o →
      pyStrip (core.toList ++ ' ' :: o) = core.toList ++ ' ' :: o →
      isoTry (core.toList ++ ' ' :: o) = none →
      parse_date now (String.mk (core.toList ++ ' ' :: o)) = dt := by
    intro o ho hs hi
    have hne : core.toList ++ ' ' :: o ≠ [] := by simp
    simp only [String.toList] at hs hi hne
    unfold parse_date
    simp only [String.toList, if_neg hne, hi, hs, subOffset_append ho]
    simp only [String.toList] at hrfc
    rw [hrfc]
  exact ⟨key o1 ho1 hs1 hi1, key o2 ho2 hs2 hi2, rfcParse_tz hrfc⟩

/-- Witness for C8: `'+0000'` and `'-0500'` on the same core parse to the
same naive timestamp with the literal clock fields. -/
theorem claim_C8_offset_discarded_witness :
    parse_date nowUTC "Wed, 01 Jan 2025 10:00:00 +0000"
      = ⟨2025, 1, 1, 10, 0, 0, 0, none⟩ ∧
    parse_date nowUTC "Wed, 01 Jan 2025 10:00:00 -0500"
      = ⟨2025, 1, 1, 10, 0, 0, 0, none⟩ := by
  have h := claim_C8_offset_discarded nowUTC "Wed, 01 Jan 2025 10:00:00"
    ['+', '0', '0', '0', '0'] ['-', '0', '5', '0', '0']
    ⟨2025, 1, 1, 10, 0, 0, 0, none⟩
    ⟨'+', '0', '0', '0', '0', rfl, Or.inl rfl, rfl, rfl, rfl, rfl⟩
    ⟨'-', '0', '5', '0', '0', rfl, Or.inr rfl, rfl, rfl, rfl, rfl⟩
    (by decide) (by decide) (by decide) (by decide) (by decide)
  exact ⟨h.1, h.2.1⟩

/-- C6: `clean_description` removes script/style blocks with their
contents before stripping the remaining tags, decodes entities, collapses
whitespace and trims; the spec's example holds, and empty input yields
the empty string. -/
theorem claim_C6_clean_description :
    clean_description "" = "" ∧
    clean_description "<script>x</script>Hello <b>World</b>" = "Hello World" ∧
    clean_description
      "<style>.a\x7bcolor:red;\x7d</style><p>A &amp; B</p>\n\n C " = "A & B C" ∧
    clean_description "<script a=b>if (x<y) s();</script>ok" = "ok" := by
  refine ⟨rfl, by decide, by decide, by decide⟩

/-- C9: with an empty collected list `save_articles` returns before
sorting, truncating or building the document — no output is produced at
all (so the previously written file stays untouched); in particular a run
in which every source fails writes nothing. -/
theorem claim_C9_empty_run_no_output :
    (∀ env : Env, save_articles env [] = none) ∧
    (∀ (env : Env) (fetch : String → FetchResult),
      (∀ p ∈ RSS_FEEDS, fetch p.2 = FetchResult.exc) →
      save_articles env (fetch_feeds env fetch) = none) := by
  constructor
  · intro env; rfl
  · intro env fetch h
    have h1 := h ("MMA Junkie", "https://mmajunkie.usatoday.com/feed")
      (by simp [RSS_FEEDS])
    have h2 := h ("Lowkick MMA", "https://lowkickmma.com/feed")
      (by simp [RSS_FEEDS])
    have h3 := h ("BJPENN", "https://bjpenn.com/feed")
      (by simp [RSS_FEEDS])
    have h4 := h ("Sherdog", "https://sherdog.com/rss/news.xml")
      (by simp [RSS_FEEDS])
    have : fetch_feeds env fetch = [] := by
      unfold fetch_feeds RSS_FEEDS
      simp only [List.map_cons, List.map_nil] at *
      rw [h1, h2, h3, h4]
      rfl
    rw [this]
    rfl

/-- Witness for C9: a run whose fetch capability always raises produces
no document. -/
theorem claim_C9_empty_run_no_output_witness :
    save_articles ⟨nowUTC, fun _ => 0, fun _ => false, fun _ => NetResult.exc⟩
      (fetch_feeds ⟨nowUTC, fun _ => 0, fun _ => false, fun _ => NetResult.exc⟩
        (fun _ => FetchResult.exc)) = none := by
  exact claim_C9_empty_run_no_output.2 _ _ (fun p _ => rfl)

/-! ## C4: thumbnail priority -/

/-- Synthetic `media_thumbnail` element. -/
def dThumb : FPDict := ⟨[("url", "https://t/1.jpg")]⟩

/-- Synthetic `media_content` element with `medium == "image"`. -/
def dContent : FPDict := ⟨[("medium", "image"), ("url", "https://t/2.jpg")]⟩

/-- Synthetic image-typed link. -/
def dLink : FPDict := ⟨[("type", "image/jpeg"), ("href", "https://t/3.jpg")]⟩

/-- Synthetic summary with an embedded `<img>` tag. -/
def synthSummary : String := "pre <img alt=\"x\" src=\"https://t/4.jpg\"> post"

/-- A synthetic entry carrying all four image signals at once. -/
def eAll : Entry :=
  { media_thumbnail := some [dThumb], media_content := some [dContent],
    links := some [dLink], summary := some synthSummary }

/-- `eAll` without the `media_thumbnail` signal. -/
def eNo1 : Entry :=
  { media_content := some [dContent], links := some [dLink],
    summary := some synthSummary }

/-- `eAll` without the first two signals. -/
def eNo2 : Entry := { links := some [dLink], summary := some synthSummary }

/-- Only the summary signal. -/
def eNo3 : Entry := { summary := some synthSummary }

/-- C4: `extract_thumbnail` resolves in strict priority order — the first
`media_thumbnail` element with a `url` wins; else the first
`media_content` element with `medium == "image"` and a `url`; else the
`href` of the first link whose `type` starts with `"image"`; else the
`src` of the first `<img>` tag of the summary; else nothing.  The last
four conjuncts check the priority on synthetic entries where several
signals are present simultaneously. -/
theorem claim_C4_thumbnail_priority :
    (∀ (e : Entry) (u : String),
      (e.media_thumbnail.getD []).findSome? (fun th => th.get? "url") = some u →
      extract_thumbnail e = some u) ∧
    (∀ (e : Entry) (u : String),
      (e.media_thumbnail.getD []).findSome? (fun th => th.get? "url") = none →
      (e.media_content.getD []).findSome?
        (fun c => if c.get? "medium" == some "image" then c.get? "url"
                  else none) = some u →
      extract_thumbnail e = some u) ∧
    (∀ (e : Entry) (lk : FPDict),
      (e.media_thumbnail.getD []).findSome? (fun th => th.get? "url") = none →
      (e.media_content.getD []).findSome?
        (fun c => if c.get? "medium" == some "image" then c.get? "url"
                  else none) = none →
      (e.links.getD []).find?
        (fun l => strStarts ((l.get? "type").getD "") "image") = some lk →
      extract_thumbnail e = lk.get? "href") ∧
    extract_thumbnail eAll = some "https://t/1.jpg" ∧
    extract_thumbnail eNo1 = some "https://t/2.jpg" ∧
    extract_thumbnail eNo2 = some "https://t/3.jpg" ∧
    extract_thumbnail eNo3 = some "https://t/4.jpg" ∧
    extract_thumbnail {} = none := by
  refine ⟨?_, ?_, ?_, by decide, by decide, by decide, by decide, rfl⟩
  · intro e u h
    unfold extract_thumbnail
    rw [h]
  · intro e u h1 h2
    unfold extract_thumbnail
    rw [h1, h2]
  · intro e lk h1 h2 h3
    unfold extract_thumbnail
    rw [h1, h2, h3]

/-- Witness for C4: the first conjunct applied to the all-signals entry. -/
theorem claim_C4_thumbnail_priority_witness :
    extract_thumbnail eAll = some "https://t/1.jpg" := by
  exact claim_C4_thumbnail_priority.1 eAll "https://t/1.jpg" rfl

/-! ## C7: failure isolation in `fetch_feeds` -/

/-- When every source's fetch raises, the run returns no articles (and,
being a total function, does not itself raise). -/
theorem fetch_feeds_all_exc (env : Env) (fetch : String → FetchResult)
    (h : ∀ p ∈ RSS_FEEDS, fetch p.2 = FetchResult.exc) :
    fetch_feeds env fetch = [] := by
  have h1 := h ("MMA Junkie", "https://mmajunkie.usatoday.com/feed")
    (by simp [RSS_FEEDS])
  have h2 := h ("Lowkick MMA", "https://lowkickmma.com/feed")
    (by simp [RSS_FEEDS])
  have h3 := h ("BJPENN", "https://bjpenn.com/feed") (by simp [RSS_FEEDS])
  have h4 := h ("Sherdog", "https://sherdog.com/rss/news.xml")
    (by simp [RSS_FEEDS])
  unfold fetch_feeds RSS_FEEDS
  simp only [List.map_cons, List.map_nil]
  rw [h1, h2, h3, h4]
  rfl

/-- Entry-level isolation, stated without the article builder: the per
-source loop keeps exactly the non-raising entries of the first ten, in
order, each built into an article. -/
theorem processEntries_skips_raises (env : Env) (nm : String)
    (pes : List PEntry) :
    processEntries env nm pes =
      ((pes.take 10).filterMap
        (fun pe => match pe with | .raises => none | .ok e => some e)).map
        (buildArticle env nm) := by
  unfold processEntries
  induction pes.take 10 with
  | nil => rfl
  | cons pe rest ih =>
      cases pe with
      | raises => simpa using ih
      | ok e => simpa using ih

/-- C7: failures are isolated.  (1) A raising source contributes nothing:
if every source raises the result is empty; (2) with one source parsed and
every other source raising, the run returns exactly the parsed source's
articles in entry order; (3) a raising entry is skipped and the loop
continues with the remaining entries.  `fetch_feeds` is a total function
of its oracles — the run itself never raises. -/
theorem claim_C7_fetch_isolation :
    (∀ (env : Env) (fetch : String → FetchResult),
      (∀ p ∈ RSS_FEEDS, fetch p.2 = FetchResult.exc) →
      fetch_feeds env fetch = []) ∧
    (∀ (env : Env) (fetch : String → FetchResult) (nm url : String)
        (b : Bool) (pes : List PEntry),
      (nm, url) ∈ RSS_FEEDS →
      fetch url = FetchResult.parsed b pes →
      (∀ q ∈ RSS_FEEDS, q.2 ≠ url → fetch q.2 = FetchResult.exc) →
      fetch_feeds env fetch = processEntries env nm pes) ∧
    (∀ (env : Env) (nm : String) (pes : List PEntry),
      processEntries env nm pes =
        ((pes.take 10).filterMap
          (fun pe => match pe with | .raises => none | .ok e => some e)).map
          (buildArticle env nm)) := by
  refine ⟨fetch_feeds_all_exc, ?_, processEntries_skips_raises⟩
  intro env fetch nm url b pes hmem hf hexc
  simp only [RSS_FEEDS, List.mem_cons, List.mem_singleton,
    List.not_mem_nil, or_false, Prod.mk.injEq] at hmem
  rcases hmem with ⟨rfl, rfl⟩ | ⟨rfl, rfl⟩ | ⟨rfl, rfl⟩ | ⟨rfl, rfl⟩
  · have e2 := hexc ("Lowkick MMA", "https://lowkickmma.com/feed")
      (by simp [RSS_FEEDS]) (by decide)
    have e3 := hexc ("BJPENN", "https://bjpenn.com/feed")
      (by simp [RSS_FEEDS]) (by decide)
    have e4 := hexc ("Sherdog", "https://sherdog.com/rss/news.xml")
      (by simp [RSS_FEEDS]) (by decide)
    unfold fetch_feeds RSS_FEEDS
    simp only [List.map_cons, List.map_nil]
    rw [hf, e2, e3, e4]
    simp
  · have e1 := hexc ("MMA Junkie", "https://mmajunkie.usatoday.com/feed")
      (by simp [RSS_FEEDS]) (by decide)
    have e3 := hexc ("BJPENN", "https://bjpenn.com/feed")
      (by simp [RSS_FEEDS]) (by decide)
    have e4 := hexc ("Sherdog", "https://sherdog.com/rss/news.xml")
      (by simp [RSS_FEEDS]) (by decide)
    unfold fetch_feeds RSS_FEEDS
    simp only [List.map_cons, List.map_nil]
    rw [hf, e1, e3, e4]
    simp
  · have e1 := hexc ("MMA Junkie", "https://mmajunkie.usatoday.com/feed")
      (by simp [RSS_FEEDS]) (by decide)
    have e2 := hexc ("Lowkick MMA", "https://lowkickmma.com/feed")
      (by simp [RSS_FEEDS]) (by decide)
    have e4 := hexc ("Sherdog", "https://sherdog.com/rss/news.xml")
      (by simp [RSS_FEEDS]) (by decide)
    unfold fetch_feeds RSS_FEEDS
    simp only [List.map_cons, List.map_nil]
    rw [hf, e1, e2, e4]
    simp
  · have e1 := hexc ("MMA Junkie", "https://mmajunkie.usatoday.com/feed")
      (by simp [RSS_FEEDS]) (by decide)
    have e2 := hexc ("Lowkick MMA", "https://lowkickmma.com/feed")
      (by simp [RSS_FEEDS]) (by decide)
    have e3 := hexc ("BJPENN", "https://bjpenn.com/feed")
      (by simp [RSS_FEEDS]) (by decide)
    unfold fetch_feeds RSS_FEEDS
    simp only [List.map_cons, List.map_nil]
    rw [hf, e1, e2, e3]
    simp

/-- Concrete one-good-source scenario: the second source parses two good
entries around a raising one; every other source raises. -/
def fetchOneGood : String → FetchResult := fun u =>
  if u = "https://lowkickmma.com/feed" then
    FetchResult.parsed false
      [PEntry.ok { title := some "a1" }, PEntry.raises,
       PEntry.ok { title := some "a2" }]
  else FetchResult.exc

/-- The environment for the concrete C7/C10 scenarios. -/
def envX : Env := ⟨nowUTC, fun _ => 0, fun _ => false, fun _ => NetResult.exc⟩

/-- Witness for C7: with one source succeeding and the rest raising, the
run returns exactly the successful source's articles — the raising entry
in the middle is skipped, the two good ones are kept in order. -/
theorem claim_C7_fetch_isolation_witness :
    fetch_feeds envX fetchOneGood =
      processEntries envX "Lowkick MMA"
        [PEntry.ok { title := some "a1" }, PEntry.raises,
         PEntry.ok { title := some "a2" }] ∧
    (fetch_feeds envX fetchOneGood).map (fun a => a.title) = ["a1", "a2"] := by
  constructor
  · exact claim_C7_fetch_isolation.2.1 envX fetchOneGood "Lowkick MMA"
      "https://lowkickmma.com/feed" false _ (by simp [RSS_FEEDS]) rfl
      (by intro q hq hne
          simp only [RSS_FEEDS, List.mem_cons, List.not_mem_nil, or_false] at hq
          rcases hq with rfl | rfl | rfl | rfl
          · rfl
          · exact absurd rfl hne
          · rfl
          · rfl)
  · decide

/-! ## C10: thumbnail field shape -/

/-- `download_image` returns nothing or a `./images/` relative path. -/
theorem download_image_shape (env : Env) (url : String) :
    download_image env url = none ∨
    ∃ f, download_image env url = some ("./images/" ++ f) := by
  unfold download_image
  by_cases h : url = ""
  · rw [if_pos h]; exact Or.inl rfl
  · rw [if_neg h]
    by_cases hf : env.fileExists ("docs/images/" ++ imgFilename env url)
    · rw [if_pos hf]; exact Or.inr ⟨_, rfl⟩
    · rw [if_neg hf]
      cases env.net url with
      | exc => exact Or.inl rfl
      | resp s => exact Or.inr ⟨_, rfl⟩

/-- C10 as amended: every article of a run carries either no thumbnail or
a `./images/<filename>` local path produced by `download_image` (the
value stored is always `download_image`'s return, never the raw remote
URL as resolved); a download that *raises* yields no thumbnail — but a
completed response with a failing status code still yields the local
path (the image file is simply never written). -/
theorem claim_C10_thumbnail_local_amended :
    (∀ (env : Env) (fetch : String → FetchResult) (a : Article),
      a ∈ fetch_feeds env fetch →
      a.thumbnail = none ∨ ∃ f, a.thumbnail = some ("./images/" ++ f)) ∧
    (∀ (env : Env) (url : String), url ≠ "" →
      env.fileExists ("docs/images/" ++ imgFilename env url) = false →
      env.net url = NetResult.exc →
      download_image env url = none) := by
  constructor
  · intro env fetch a ha
    simp only [fetch_feeds, List.mem_flatten, List.mem_map] at ha
    obtain ⟨l, ⟨p, _, rfl⟩, hal⟩ := ha
    have hb : ∃ e : Entry, a = buildArticle env p.1 e := by
      cases hfp : fetch p.2 with
      | exc => rw [hfp] at hal; cases hal
      | parsed b pes =>
          rw [hfp] at hal
          simp only [processEntries, List.mem_filterMap] at hal
          obtain ⟨pe, _, hpe⟩ := hal
          cases pe with
          | raises => cases hpe
          | ok e => exact ⟨e, (Option.some_inj.mp hpe).symm⟩
    obtain ⟨e, rfl⟩ := hb
    have hbt : (buildArticle env p.1 e).thumbnail =
        match extract_thumbnail e with
        | some u => if u ≠ "" then download_image env u else none
        | none => none := rfl
    rw [hbt]
    cases extract_thumbnail e with
    | none => exact Or.inl rfl
    | some u =>
        show (if u ≠ "" then download_image env u else none) = none ∨
          ∃ f, (if u ≠ "" then download_image env u else none)
            = some ("./images/" ++ f)
        by_cases hu : u ≠ ""
        · rw [if_pos hu]
          exact download_image_shape env u
        · rw [if_neg hu]
          exact Or.inl rfl
  · intro env url h hfe hnet
    unfold download_image
    rw [if_neg h, if_neg (by rw [hfe]; exact Bool.false_ne_true), hnet]

/-- The network completes with a 404 — a failed download, but not an
exception. -/
def envC10 : Env := ⟨nowUTC, fun _ => 0, fun _ => false, fun _ => NetResult.resp 404⟩

/-- An entry whose `media_thumbnail` resolves to a remote image URL. -/
def eImg : Entry := { media_thumbnail := some [⟨[("url", "http://h/p.jpg")]⟩] }

/-- One source serving `eImg`, the rest raising. -/
def fetchC10 : String → FetchResult := fun u =>
  if u = "https://bjpenn.com/feed" then FetchResult.parsed false [PEntry.ok eImg]
  else FetchResult.exc

/-- Counterexample to C10 as stated: the download *fails* (HTTP 404, no
file is ever written — `fileExists` is false everywhere), yet the article
still stores the local path, not `None`.  Only a raised exception yields
`None`. -/
theorem claim_C10_counterexample :
    envC10.net "http://h/p.jpg" = NetResult.resp 404 ∧
    envC10.fileExists "docs/images/p.jpg" = false ∧
    (fetch_feeds envC10 fetchC10).map (fun a => a.thumbnail)
      = [some "./images/p.jpg"] := by
  exact ⟨rfl, rfl, by decide⟩

/-- Witness for the amended C10: the shape property at the concrete run,
and the raising-download case at a concrete URL. -/
theorem claim_C10_thumbnail_local_amended_witness :
    (∀ a ∈ fetch_feeds envC10 fetchC10,
      a.thumbnail = none ∨ ∃ f, a.thumbnail = some ("./images/" ++ f)) ∧
    download_image envX "http://h/p.jpg" = none := by
  constructor
  · intro a ha
    exact claim_C10_thumbnail_local_amended.1 envC10 fetchC10 a ha
  · exact claim_C10_thumbnail_local_amended.2 envX "http://h/p.jpg"
      (by decide) rfl rfl

/-! ## C3: state of the list after a failed sort -/

section PySortPerm

variable {K A : Type} (ltq : K → K → Option Bool)

/-- A successful binary insertion permutes the inserted element into the
prefix. -/
theorem binsertOne_perm {pref pref' : List (K × A)} {x : K × A}
    (h : binsertOne ltq pref x = some pref') : pref'.Perm (x :: pref) := by
  unfold binsertOne at h
  cases hs : binSearchGo ltq pref x.1 pref.length 0 pref.length with
  | none => rw [hs] at h; cases h
  | some p =>
      rw [hs] at h
      cases h
      have h1 : (pref.take p ++ x :: pref.drop p).Perm
          (x :: (pref.take p ++ pref.drop p)) := List.perm_middle
      rwa [List.take_append_drop] at h1

/-- Whatever happens — completion or a raising comparison — the
`binarysort` loop leaves a permutation of its input. -/
theorem binsortLoop_perm (pref rest : List (K × A)) :
    ((binsortLoop ltq pref rest).2).Perm (pref ++ rest) := by
  induction rest generalizing pref with
  | nil => simp [binsortLoop]
  | cons x rest ih =>
      unfold binsortLoop
      cases hb : binsertOne ltq pref x with
      | none => exact List.Perm.refl _
      | some pref' =>
          have h1 : ((binsortLoop ltq pref' rest).2).Perm (pref' ++ rest) :=
            ih pref'
          have h2 : (pref' ++ rest).Perm ((x :: pref) ++ rest) :=
            (binsertOne_perm ltq hb).append_right rest
          have h3 : (pref ++ x :: rest).Perm (x :: (pref ++ rest)) :=
            List.perm_middle
          exact (h1.trans h2).trans h3.symm

/-- `count_run` only reverses a prefix in place. -/
theorem countRun_perm {l l1 : List (K × A)} {run : Nat}
    (h : countRun ltq l = some (run, l1)) : l1.Perm l := by
  match l with
  | [] =>
      have h' : ((0 : Nat), ([] : List (K × A))) = (run, l1) :=
        Option.some_inj.mp h
      cases h'; exact List.Perm.refl _
  | [x] =>
      have h' : ((1 : Nat), [x]) = (run, l1) := Option.some_inj.mp h
      cases h'; exact List.Perm.refl _
  | x0 :: x1 :: rest =>
      have h : (match ltq x1.1 x0.1 with
          | none => none
          | some true =>
              (descExtend ltq x1.1 rest).map fun k =>
                (2 + k, ((x0 :: x1 :: rest).take (2 + k)).reverse
                  ++ (x0 :: x1 :: rest).drop (2 + k))
          | some false =>
              (ascExtend ltq x1.1 rest).map fun k =>
                (2 + k, x0 :: x1 :: rest)) = some (run, l1) := h
      cases hc : ltq x1.1 x0.1 with
      | none => rw [hc] at h; cases h
      | some b =>
          rw [hc] at h
          cases b with
          | true =>
              cases hd : descExtend ltq x1.1 rest with
              | none => rw [hd] at h; cases h
              | some k =>
                  rw [hd] at h
                  cases h
                  have h1 : (((x0 :: x1 :: rest).take (2 + k)).reverse
                      ++ (x0 :: x1 :: rest).drop (2 + k)).Perm
                      ((x0 :: x1 :: rest).take (2 + k)
                      ++ (x0 :: x1 :: rest).drop (2 + k)) :=
                    ((x0 :: x1 :: rest).take (2 + k)).reverse_perm.append_right _
                  rwa [List.take_append_drop] at h1
          | false =>
              cases ha : ascExtend ltq x1.1 rest with
              | none => rw [ha] at h; cases h
              | some k => rw [ha] at h; cases h; exact List.Perm.refl _

/-- The small-list sort always leaves a permutation, aborted or not. -/
theorem listsortSmall_perm (l : List (K × A)) :
    ((listsortSmall ltq l).2).Perm l := by
  unfold listsortSmall
  by_cases hl : l.length < 2
  · rw [if_pos hl]
  · rw [if_neg hl]
    cases hc : countRun ltq l with
    | none => exact List.Perm.refl _
    | some p =>
        obtain ⟨run, l1⟩ := p
        have h1 : ((binsortLoop ltq (l1.take run) (l1.drop run)).2).Perm
            (l1.take run ++ l1.drop run) := binsortLoop_perm ltq _ _
        rw [List.take_append_drop] at h1
        exact h1.trans (countRun_perm ltq hc)

/-- `list.sort(key=…, reverse=True)` never loses or duplicates an
element, even when a comparison raises mid-sort. -/
theorem pySortKeyRev_perm (key : A → K) (l : List A) :
    ((pySortKeyRev ltq key l).2).Perm l := by
  unfold pySortKeyRev
  have h1 : (((listsortSmall ltq ((l.map fun a => (key a, a)).reverse)).2).reverse.map
      Prod.snd).Perm
      (((listsortSmall ltq ((l.map fun a => (key a, a)).reverse)).2).map Prod.snd) :=
    (((listsortSmall ltq ((l.map fun a => (key a, a)).reverse)).2).reverse_perm).map _
  have h2 := ((listsortSmall_perm ltq ((l.map fun a => (key a, a)).reverse)).map
    (Prod.snd : K × A → A))
  have h3 := (((l.map fun a => (key a, a)).reverse_perm).map (Prod.snd : K × A → A))
  have h4 : ((l.map fun a => (key a, a)).map Prod.snd) = l := by
    rw [List.map_map]
    exact List.map_id' l
  rw [h4] at h3
  exact (h1.trans h2).trans h3

end PySortPerm

/-- An article that differs only in its raw `pubDate` string. -/
def artD (pd : String) : Article := ⟨"", "", "", pd, "", none⟩

/-- Four articles whose keys make the sort raise only after `count_run`
has already reversed a descending run: the first key is aware (ISO with
offset), the rest are naive. -/
def arts4 : List Article :=
  [artD "2025-01-04T00:00:00+00:00", artD "2025-01-08 00:00:00",
   artD "2025-01-03 00:00:00", artD "2025-01-05 00:00:00"]

/-- Counterexample to C3: the comparison between the naive and the aware
key raises mid-sort, the failure is caught — but the list is *not* left
in its original order: CPython's `count_run` has already reversed the
trailing descending run, so the last two articles come out swapped. -/
theorem claim_C3_counterexample :
    (pySortKeyRev pyLt (sortKey envX) arts4).1 = false ∧
    (save_articles envX arts4).map (fun o => o.articles)
      = some [artD "2025-01-04T00:00:00+00:00", artD "2025-01-08 00:00:00",
              artD "2025-01-05 00:00:00", artD "2025-01-03 00:00:00"] ∧
    [artD "2025-01-04T00:00:00+00:00", artD "2025-01-08 00:00:00",
     artD "2025-01-05 00:00:00", artD "2025-01-03 00:00:00"] ≠ arts4 := by
  exact ⟨by decide, by decide, by decide⟩

/-- C3 as amended: when a comparison fails during the ranking sort, the
failure is caught and the pipeline continues (`save_articles` still
produces the document from the post-sort state, truncated to 30), and the
aborted in-place sort leaves the article list as a *permutation* of the
input — nothing is lost or duplicated — but not necessarily in the
original input order. -/
theorem claim_C3_sort_failure_amended (env : Env) (articles : List Article)
    (hfail : (pySortKeyRev pyLt (sortKey env) articles).1 = false) :
    ((pySortKeyRev pyLt (sortKey env) articles).2).Perm articles ∧
    save_articles env articles =
      some { generated_at := isoformatUTC env.now
             article_count :=
               ((pySortKeyRev pyLt (sortKey env) articles).2.take 30).length
             articles := (pySortKeyRev pyLt (sortKey env) articles).2.take 30 } := by
  have hne : articles ≠ [] := by
    intro hnil
    rw [hnil] at hfail
    exact Bool.noConfusion hfail
  refine ⟨pySortKeyRev_perm pyLt (sortKey env) articles, ?_⟩
  unfold save_articles
  rw [if_neg hne]

/-- Witness for the amended C3, at the concrete failing input: the
post-failure list is a permutation of the input and the document is still
produced. -/
theorem claim_C3_sort_failure_amended_witness :
    ((pySortKeyRev pyLt (sortKey envX) arts4).2).Perm arts4 ∧
    save_articles envX arts4 =
      some { generated_at := isoformatUTC envX.now
             article_count :=
               ((pySortKeyRev pyLt (sortKey envX) arts4).2.take 30).length
             articles := (pySortKeyRev pyLt (sortKey envX) arts4).2.take 30 } :=
  claim_C3_sort_failure_amended envX arts4 (by decide)

/-! ## C5: the successful sort is the stable descending insertion sort

Specification side (`sInsertDesc`, `specSortDesc`) written from the
spec's words — sort descending by the parsed key, ties keeping the
original relative order — and proved equal to the CPython model whenever
every comparison is defined (all keys naive, or all keys aware with one
offset).  The development is generic in an abstract boolean order `ltb`
that agrees with the optional comparison `ltq` on keys satisfying `P`. -/

section SortCorrect

variable {K A : Type}

/-- Stable ascending insertion: place `x` before the first strictly
greater element, after all elements less than or equal to it. -/
def sInsert (ltb : K → K → Bool) (x : K × A) : List (K × A) → List (K × A)
  | [] => [x]
  | y :: ys => if ltb x.1 y.1 then x :: y :: ys else y :: sInsert ltb x ys

/-- Stable descending insertion: pass over every element `x` is strictly
below, so that `x` lands before the first element less than or equal to
it — equal keys keep their original relative order. -/
def sInsertDesc (ltb : K → K → Bool) (x : K × A) : List (K × A) → List (K × A)
  | [] => [x]
  | y :: ys => if ltb x.1 y.1 then y :: sInsertDesc ltb x ys else x :: y :: ys

/-- The spec's ranker order: stable descending insertion sort. -/
def specSortDesc (ltb : K → K → Bool) (l : List (K × A)) : List (K × A) :=
  l.foldr (sInsertDesc ltb) []

variable (ltb : K → K → Bool)

/-- Membership through ascending insertion. -/
theorem mem_sInsert {z x : K × A} {l : List (K × A)} :
    z ∈ sInsert ltb x l ↔ z = x ∨ z ∈ l := by
  induction l with
  | nil => simp [sInsert]
  | cons y ys ih =>
      simp only [sInsert]
      by_cases h : ltb x.1 y.1
      · rw [if_pos h]; simp [List.mem_cons]
      · rw [if_neg h]; simp [List.mem_cons, ih]; tauto

/-- Ascending insertion past elements that are all `≤ x` appends. -/
theorem sInsert_append_of_all {x : K × A} {l : List (K × A)}
    (h : ∀ y ∈ l, ltb x.1 y.1 = false) : sInsert ltb x l = l ++ [x] := by
  induction l with
  | nil => rfl
  | cons y ys ih =>
      unfold sInsert
      rw [if_neg (by simp [h y (by simp)]), ih (fun z hz => h z (by simp [hz]))]
      rfl

/-- Descending insertion past elements all strictly above `x` appends. -/
theorem sInsertDesc_append_of_all {x : K × A} {l : List (K × A)}
    (h : ∀ y ∈ l, ltb x.1 y.1 = true) : sInsertDesc ltb x l = l ++ [x] := by
  induction l with
  | nil => rfl
  | cons y ys ih =>
      unfold sInsertDesc
      rw [if_pos (h y (by simp)), ih (fun z hz => h z (by simp [hz]))]
      rfl

/-- Descending insertion commutes with a final element `x` is not
strictly below. -/
theorem sInsertDesc_append_last {x y : K × A} {l : List (K × A)}
    (h : ltb x.1 y.1 = false) :
    sInsertDesc ltb x (l ++ [y]) = sInsertDesc ltb x l ++ [y] := by
  induction l with
  | nil => simp [sInsertDesc, h]
  | cons z zs ih =>
      simp only [List.cons_append, sInsertDesc, List.append_eq]
      by_cases hz : ltb x.1 z.1
      · rw [if_pos hz, if_pos hz, ih]; rfl
      · rw [if_neg hz, if_neg hz]; rfl

end SortCorrect

section SortEquiv

variable {K A : Type}
variable (ltq : K → K → Option Bool) (ltb : K → K → Bool) (P : K → Prop)

/-- Ascending sortedness of a decorated array: no later key is strictly
below an earlier one. -/
def SortedAsc (l : List (K × A)) : Prop :=
  l.Pairwise (fun u v => ltb v.1 u.1 = false)

/-- Stable ascending insertion preserves sortedness. -/
theorem sInsert_sorted
    (hlt : ∀ a b c : K, ltb a b = true → ltb c b = false → ltb a c = true)
    (hasym : ∀ a b : K, ltb a b = true → ltb b a = false)
    {x : K × A} {l : List (K × A)}
    (hs : SortedAsc ltb l) : SortedAsc ltb (sInsert ltb x l) := by
  induction l with
  | nil => simp [sInsert, SortedAsc]
  | cons y ys ih =>
      rw [SortedAsc, List.pairwise_cons] at hs
      obtain ⟨hy, hys⟩ := hs
      simp only [sInsert]
      by_cases hxy : ltb x.1 y.1
      · rw [if_pos hxy]
        rw [SortedAsc, List.pairwise_cons]
        refine ⟨?_, ?_⟩
        · intro z hz
          rcases List.mem_cons.mp hz with rfl | hz'
          · exact hasym _ _ hxy
          · exact hasym _ _ (hlt _ _ _ hxy (hy z hz'))
        · rw [← SortedAsc] at hys
          exact List.Pairwise.cons hy hys
      · rw [if_neg hxy]
        rw [SortedAsc, List.pairwise_cons]
        refine ⟨?_, ih hys⟩
        intro z hz
        rcases (mem_sInsert ltb).mp hz with rfl | hz'
        · exact Bool.eq_false_iff.mpr hxy
        · exact hy z hz'

/-- Indexed form of sortedness. -/
theorem sortedAsc_get {l : List (K × A)} (hs : SortedAsc ltb l)
    {i j : Nat} (hi : i < l.length) (hj : j < l.length) (hij : i < j) :
    ltb (l.get ⟨j, hj⟩).1 (l.get ⟨i, hi⟩).1 = false := by
  rw [SortedAsc, List.pairwise_iff_get] at hs
  exact hs ⟨i, hi⟩ ⟨j, hj⟩ hij

/-- Invariant-based correctness of the CPython binary search: under
defined comparisons on a sorted prefix, it returns a position below which
every element is at or below the pivot and from which every element is
strictly above it. -/
theorem binSearchGo_inv
    (hq : ∀ a b, P a → P b → ltq a b = some (ltb a b))
    (hntr : ∀ a b c : K, ltb a b = false → ltb b c = false → ltb a c = false)
    (hlt : ∀ a b c : K, ltb a b = true → ltb c b = false → ltb a c = true)
    (pref : List (K × A)) (pivot : K)
    (hs : SortedAsc ltb pref) (hP : ∀ y ∈ pref, P y.1) (hp : P pivot) :
    ∀ (fuel l r : Nat), l ≤ r → r ≤ pref.length → r - l ≤ fuel →
    (∀ (j : Nat) (hj : j < pref.length), j < l →
      ltb pivot (pref.get ⟨j, hj⟩).1 = false) →
    (∀ (j : Nat) (hj : j < pref.length), r ≤ j →
      ltb pivot (pref.get ⟨j, hj⟩).1 = true) →
    ∃ p, binSearchGo ltq pref pivot fuel l r = some p ∧ l ≤ p ∧ p ≤ r ∧
      (∀ (j : Nat) (hj : j < pref.length), j < p →
        ltb pivot (pref.get ⟨j, hj⟩).1 = false) ∧
      (∀ (j : Nat) (hj : j < pref.length), p ≤ j →
        ltb pivot (pref.get ⟨j, hj⟩).1 = true) := by
  intro fuel
  induction fuel with
  | zero =>
      intro l r hlr hrlen hfuel hlow hhigh
      have : l = r := by omega
      subst this
      exact ⟨l, rfl, Nat.le_refl _, Nat.le_refl _, hlow, hhigh⟩
  | succ fuel ih =>
      intro l r hlr hrlen hfuel hlow hhigh
      by_cases hcmp : l < r
      · have hplt : l + (r - l) / 2 < r := by omega
        have hple : l ≤ l + (r - l) / 2 := by omega
        have hplen : l + (r - l) / 2 < pref.length := by omega
        have hget : pref.get? (l + (r - l) / 2)
            = some (pref.get ⟨l + (r - l) / 2, hplen⟩) :=
          List.get?_eq_get hplen
        have hcq : ltq pivot (pref.get ⟨l + (r - l) / 2, hplen⟩).1
            = some (ltb pivot (pref.get ⟨l + (r - l) / 2, hplen⟩).1) :=
          hq _ _ hp (hP _ (pref.get_mem _ _))
        by_cases hb : ltb pivot (pref.get ⟨l + (r - l) / 2, hplen⟩).1 = true
        · have hhigh' : ∀ (j : Nat) (hj : j < pref.length),
              l + (r - l) / 2 ≤ j →
              ltb pivot (pref.get ⟨j, hj⟩).1 = true := by
            intro j hj hpj
            rcases Nat.eq_or_lt_of_le hpj with h | h
            · have he : (⟨l + (r - l) / 2, hplen⟩ : Fin pref.length)
                  = ⟨j, hj⟩ := by
                apply Fin.ext; exact h
              rw [← he]; exact hb
            · exact hlt _ _ _ hb (sortedAsc_get ltb hs hplen hj h)
          obtain ⟨p, hrun, h1, h2, h3, h4⟩ := ih l (l + (r - l) / 2) hple
            (by omega) (by omega) hlow hhigh'
          refine ⟨p, ?_, h1, by omega, h3, h4⟩
          unfold binSearchGo
          rw [if_pos hcmp, hget]
          show (match ltq pivot (pref.get ⟨l + (r - l) / 2, hplen⟩).1 with
            | none => none
            | some true => binSearchGo ltq pref pivot fuel l (l + (r - l) / 2)
            | some false =>
                binSearchGo ltq pref pivot fuel (l + (r - l) / 2 + 1) r)
            = some p
          rw [hcq, hb]
          exact hrun
        · have hb' : ltb pivot (pref.get ⟨l + (r - l) / 2, hplen⟩).1 = false :=
            Bool.eq_false_iff.mpr hb
          have hlow' : ∀ (j : Nat) (hj : j < pref.length),
              j < l + (r - l) / 2 + 1 →
              ltb pivot (pref.get ⟨j, hj⟩).1 = false := by
            intro j hj hpj
            rcases Nat.lt_succ_iff_lt_or_eq.mp hpj with h | h
            · exact hntr _ _ _ hb' (sortedAsc_get ltb hs hj hplen h)
            · have he : (⟨j, hj⟩ : Fin pref.length)
                  = ⟨l + (r - l) / 2, hplen⟩ := by
                apply Fin.ext; exact h
              rw [he]; exact hb'
          obtain ⟨p, hrun, h1, h2, h3, h4⟩ := ih (l + (r - l) / 2 + 1) r
            (by omega) hrlen (by omega) hlow' hhigh
          refine ⟨p, ?_, by omega, h2, h3, h4⟩
          unfold binSearchGo
          rw [if_pos hcmp, hget]
          show (match ltq pivot (pref.get ⟨l + (r - l) / 2, hplen⟩).1 with
            | none => none
            | some true => binSearchGo ltq pref pivot fuel l (l + (r - l) / 2)
            | some false =>
                binSearchGo ltq pref pivot fuel (l + (r - l) / 2 + 1) r)
            = some p
          rw [hcq, hb']
          exact hrun
      · have : l = r := by omega
        subst this
        refine ⟨l, ?_, Nat.le_refl _, Nat.le_refl _, hlow, hhigh⟩
        unfold binSearchGo
        rw [if_neg hcmp]


/-- Insertion at a position separating the at-or-below prefix from the
strictly-greater suffix is exactly the stable insertion. -/
theorem sInsert_eq_insertAt {ltb : K → K → Bool} {x : K × A}
    {l : List (K × A)} :
    ∀ {p : Nat}, p ≤ l.length →
    (∀ (j : Nat) (hj : j < l.length), j < p →
      ltb x.1 (l.get ⟨j, hj⟩).1 = false) →
    (∀ (j : Nat) (hj : j < l.length), p ≤ j →
      ltb x.1 (l.get ⟨j, hj⟩).1 = true) →
    sInsert ltb x l = l.take p ++ x :: l.drop p := by
  induction l with
  | nil =>
      intro p hp _ _
      have : p = 0 := by simpa using hp
      subst this
      rfl
  | cons y ys ih =>
      intro p hp hlo hhi
      cases p with
      | zero =>
          have h0 : ltb x.1 y.1 = true :=
            hhi 0 (by simp) (Nat.zero_le _)
          simp only [sInsert, if_pos h0, List.take_zero, List.drop_zero,
            List.nil_append]
      | succ q =>
          have h0 : ltb x.1 y.1 = false :=
            hlo 0 (by simp) (Nat.succ_pos _)
          have hq : q ≤ ys.length := by simpa using hp
          have hlo' : ∀ (j : Nat) (hj : j < ys.length), j < q →
              ltb x.1 (ys.get ⟨j, hj⟩).1 = false := by
            intro j hj hjq
            have := hlo (j + 1) (by simpa using Nat.succ_lt_succ hj)
              (Nat.succ_lt_succ hjq)
            simpa using this
          have hhi' : ∀ (j : Nat) (hj : j < ys.length), q ≤ j →
              ltb x.1 (ys.get ⟨j, hj⟩).1 = true := by
            intro j hj hjq
            have := hhi (j + 1) (by simpa using Nat.succ_lt_succ hj)
              (Nat.succ_le_succ hjq)
            simpa using this
          have hcond : ¬ (ltb x.1 y.1 = true) := by simp [h0]
          simp only [sInsert, if_neg hcond, List.take_succ_cons,
            List.drop_succ_cons, List.cons_append]
          rw [ih hq hlo' hhi']

/-- On a sorted, `P`-closed prefix, one step of `binarysort` computes the
stable ascending insertion. -/
theorem binsertOne_spec {ltq : K → K → Option Bool} {ltb : K → K → Bool}
    {P : K → Prop}
    (hq : ∀ a b, P a → P b → ltq a b = some (ltb a b))
    (hntr : ∀ a b c : K, ltb a b = false → ltb b c = false → ltb a c = false)
    (hlt : ∀ a b c : K, ltb a b = true → ltb c b = false → ltb a c = true)
    {pref : List (K × A)} {x : K × A}
    (hs : SortedAsc ltb pref) (hP : ∀ y ∈ pref, P y.1) (hx : P x.1) :
    binsertOne ltq pref x = some (sInsert ltb x pref) := by
  obtain ⟨p, hrun, h1, h2, h3, h4⟩ := binSearchGo_inv ltq ltb P hq hntr hlt
    pref x.1 hs hP hx pref.length 0 pref.length (Nat.zero_le _)
    (Nat.le_refl _) (by omega) (by intro j hj hj0; omega)
    (by intro j hj hjlen; omega)
  unfold binsertOne
  rw [hrun]
  rw [sInsert_eq_insertAt h2 h3 h4]
  rfl

/-- The `binarysort` loop over a sorted, `P`-closed state computes the
left fold of stable insertions and never fails. -/
theorem binsortLoop_spec {ltq : K → K → Option Bool} {ltb : K → K → Bool}
    {P : K → Prop}
    (hq : ∀ a b, P a → P b → ltq a b = some (ltb a b))
    (hntr : ∀ a b c : K, ltb a b = false → ltb b c = false → ltb a c = false)
    (hlt : ∀ a b c : K, ltb a b = true → ltb c b = false → ltb a c = true)
    (hasym : ∀ a b : K, ltb a b = true → ltb b a = false) :
    ∀ (rest pref : List (K × A)), SortedAsc ltb pref →
    (∀ y ∈ pref, P y.1) → (∀ y ∈ rest, P y.1) →
    binsortLoop ltq pref rest =
      (true, rest.foldl (fun acc x => sInsert ltb x acc) pref) := by
  intro rest
  induction rest with
  | nil => intro pref _ _ _; rfl
  | cons x rest ih =>
      intro pref hs hP hR
      unfold binsortLoop
      rw [binsertOne_spec hq hntr hlt hs hP (hR x (by simp))]
      show binsortLoop ltq (sInsert ltb x pref) rest
        = (true, List.foldl (fun acc x => sInsert ltb x acc) pref (x :: rest))
      rw [ih (sInsert ltb x pref) (sInsert_sorted ltb hlt hasym hs)
        (by intro y hy
            rcases (mem_sInsert ltb).mp hy with rfl | hy'
            · exact hR y (by simp)
            · exact hP y hy')
        (by intro y hy; exact hR y (by simp [hy]))]
      rfl

/-- An adjacent chain is globally pairwise when the relation is
transitive (hypothesis form). -/
theorem chainRel_pairwise {R : K × A → K × A → Prop}
    (htrans : ∀ a b c, R a b → R b c → R a c) :
    ∀ l : List (K × A), List.Chain' R l → l.Pairwise R := by
  intro l
  induction l with
  | nil => intro _; exact List.Pairwise.nil
  | cons x xs ih =>
      intro hc
      rcases xs with _ | ⟨y, ys⟩
      · exact List.pairwise_singleton _ _
      · have hxy : R x y := List.Chain'.rel_head hc
        have htail : List.Chain' R (y :: ys) := List.Chain'.tail hc
        have hptail : (y :: ys).Pairwise R := ih htail
        refine List.Pairwise.cons ?_ hptail
        intro z hz
        rcases List.mem_cons.mp hz with rfl | hz'
        · exact hxy
        · have hy : ∀ w ∈ ys, R y w :=
            (List.pairwise_cons.mp hptail).1
          exact htrans _ _ _ hxy (hy z hz')

/-- `ascExtend` never fails under defined comparisons, and accepts an
adjacent-wise non-descending prefix. -/
theorem ascExtend_spec {ltq : K → K → Option Bool} {ltb : K → K → Bool}
    {P : K → Prop} (hq : ∀ a b, P a → P b → ltq a b = some (ltb a b)) :
    ∀ (rest : List (K × A)) (prev : K × A), P prev.1 →
    (∀ y ∈ rest, P y.1) →
    ∃ k, ascExtend ltq prev.1 rest = some k ∧ k ≤ rest.length ∧
      List.Chain' (fun u v : K × A => ltb v.1 u.1 = false)
        (prev :: rest.take k) := by
  intro rest
  induction rest with
  | nil =>
      intro prev _ _
      exact ⟨0, rfl, Nat.le_refl _, List.chain'_singleton _⟩
  | cons y ys ih =>
      intro prev hprev hP
      have hcq : ltq y.1 prev.1 = some (ltb y.1 prev.1) :=
        hq _ _ (hP y (by simp)) hprev
      by_cases hb : ltb y.1 prev.1 = true
      · refine ⟨0, ?_, Nat.zero_le _, List.chain'_singleton _⟩
        unfold ascExtend
        rw [hcq, hb]
      · have hb' : ltb y.1 prev.1 = false := Bool.eq_false_iff.mpr hb
        obtain ⟨k, hrun, hk, hchain⟩ := ih y (hP y (by simp))
          (fun z hz => hP z (by simp [hz]))
        refine ⟨k + 1, ?_, by simpa using Nat.succ_le_succ hk, ?_⟩
        · unfold ascExtend
          rw [hcq, hb', hrun]
          rfl
        · rw [List.take_succ_cons]
          exact List.Chain'.cons hb' hchain

/-- `descExtend` never fails under defined comparisons, and accepts an
adjacent-wise strictly descending prefix. -/
theorem descExtend_spec {ltq : K → K → Option Bool} {ltb : K → K → Bool}
    {P : K → Prop} (hq : ∀ a b, P a → P b → ltq a b = some (ltb a b)) :
    ∀ (rest : List (K × A)) (prev : K × A), P prev.1 →
    (∀ y ∈ rest, P y.1) →
    ∃ k, descExtend ltq prev.1 rest = some k ∧ k ≤ rest.length ∧
      List.Chain' (fun u v : K × A => ltb v.1 u.1 = true)
        (prev :: rest.take k) := by
  intro rest
  induction rest with
  | nil =>
      intro prev _ _
      exact ⟨0, rfl, Nat.le_refl _, List.chain'_singleton _⟩
  | cons y ys ih =>
      intro prev hprev hP
      have hcq : ltq y.1 prev.1 = some (ltb y.1 prev.1) :=
        hq _ _ (hP y (by simp)) hprev
      by_cases hb : ltb y.1 prev.1 = true
      · obtain ⟨k, hrun, hk, hchain⟩ := ih y (hP y (by simp))
          (fun z hz => hP z (by simp [hz]))
        refine ⟨k + 1, ?_, by simpa using Nat.succ_le_succ hk, ?_⟩
        · unfold descExtend
          rw [hcq, hb, hrun]
          rfl
        · rw [List.take_succ_cons]
          exact List.Chain'.cons hb hchain
      · have hb' : ltb y.1 prev.1 = false := Bool.eq_false_iff.mpr hb
        refine ⟨0, ?_, Nat.zero_le _, List.chain'_singleton _⟩
        unfold descExtend
        rw [hcq, hb']

/-- Left-folding stable insertion over an already-sorted list is the
identity. -/
theorem foldl_sInsert_sorted {ltb : K → K → Bool}
    {l : List (K × A)}
    (hp : l.Pairwise (fun u v : K × A => ltb v.1 u.1 = false)) :
    l.foldl (fun acc x => sInsert ltb x acc) [] = l := by
  induction l using List.reverseRecOn with
  | nil => rfl
  | append_singleton m x ih =>
      rw [List.foldl_append]
      simp only [List.foldl_cons, List.foldl_nil]
      have hm : m.Pairwise (fun u v : K × A => ltb v.1 u.1 = false) :=
        (List.pairwise_append.mp hp).1
      rw [ih hm]
      exact sInsert_append_of_all ltb
        (fun y hy => (List.pairwise_append.mp hp).2.2 y hy x (by simp))

/-- Left-folding stable insertion over a strictly descending chain
accumulates in reverse. -/
theorem foldl_sInsert_desc {ltb : K → K → Bool} :
    ∀ (rest : List (K × A)) (x : K × A) (acc : List (K × A)),
    List.Chain' (fun u v : K × A => ltb v.1 u.1 = true) (x :: rest) →
    rest.foldl (fun acc z => sInsert ltb z acc) (x :: acc) =
      rest.reverse ++ x :: acc := by
  intro rest
  induction rest with
  | nil => intro x acc _; rfl
  | cons y ys ih =>
      intro x acc hc
      have hxy : ltb y.1 x.1 = true := (List.chain'_cons.mp hc).1
      have htail : List.Chain' (fun u v : K × A => ltb v.1 u.1 = true)
          (y :: ys) := (List.chain'_cons.mp hc).2
      simp only [List.foldl_cons]
      have hins : sInsert ltb y (x :: acc) = y :: x :: acc := by
        simp only [sInsert, if_pos hxy]
      rw [hins, ih y (x :: acc) htail]
      simp

/-- Under defined comparisons, the CPython small-list sort succeeds and
computes the left fold of stable ascending insertions. -/
theorem listsortSmall_spec {ltq : K → K → Option Bool} {ltb : K → K → Bool}
    {P : K → Prop}
    (hq : ∀ a b, P a → P b → ltq a b = some (ltb a b))
    (hntr : ∀ a b c : K, ltb a b = false → ltb b c = false → ltb a c = false)
    (hlt : ∀ a b c : K, ltb a b = true → ltb c b = false → ltb a c = true)
    (hasym : ∀ a b : K, ltb a b = true → ltb b a = false)
    (l : List (K × A)) (hP : ∀ y ∈ l, P y.1) :
    listsortSmall ltq l =
      (true, l.foldl (fun acc x => sInsert ltb x acc) []) := by
  have htransR : ∀ a b c : K × A, (fun u v : K × A => ltb v.1 u.1 = false) a b →
      (fun u v : K × A => ltb v.1 u.1 = false) b c →
      (fun u v : K × A => ltb v.1 u.1 = false) a c :=
    fun a b c hab hbc => hntr c.1 b.1 a.1 hbc hab
  match l with
  | [] => rfl
  | [x] => rfl
  | x0 :: x1 :: rest =>
      have hP0 : P x0.1 := hP x0 (by simp)
      have hP1 : P x1.1 := hP x1 (by simp)
      have hPr : ∀ y ∈ rest, P y.1 := fun y hy => hP y (by simp [hy])
      have hcq : ltq x1.1 x0.1 = some (ltb x1.1 x0.1) := hq _ _ hP1 hP0
      have hlnot : ¬ (x0 :: x1 :: rest).length < 2 := by
        simp only [List.length_cons]; omega
      by_cases hbx : ltb x1.1 x0.1 = true
      · -- descending initial run: count_run reverses it in place
        obtain ⟨k, hrun, hk, hchain⟩ := descExtend_spec hq rest x1 hP1 hPr
        have hcr : countRun ltq (x0 :: x1 :: rest)
            = some (2 + k, ((x0 :: x1 :: rest).take (2 + k)).reverse
              ++ (x0 :: x1 :: rest).drop (2 + k)) := by
          show (match ltq x1.1 x0.1 with
            | none => none
            | some true =>
                (descExtend ltq x1.1 rest).map fun k =>
                  (2 + k, ((x0 :: x1 :: rest).take (2 + k)).reverse
                    ++ (x0 :: x1 :: rest).drop (2 + k))
            | some false =>
                (ascExtend ltq x1.1 rest).map fun k =>
                  (2 + k, x0 :: x1 :: rest)) = _
          rw [hcq, hbx, hrun]
          rfl
        have htake : (x0 :: x1 :: rest).take (2 + k)
            = x0 :: x1 :: rest.take k := by
          simp [List.take_succ_cons, Nat.add_comm 2 k]
        have hdrop : (x0 :: x1 :: rest).drop (2 + k) = rest.drop k := by
          simp [List.drop_succ_cons, Nat.add_comm 2 k]
        rw [htake, hdrop] at hcr
        have hchainF : List.Chain' (fun u v : K × A => ltb v.1 u.1 = true)
            (x0 :: x1 :: rest.take k) :=
          List.chain'_cons.mpr ⟨hbx, hchain⟩
        have hlenrun : (x0 :: x1 :: rest.take k).length = 2 + k := by
          simp [List.length_take]; omega
        have hrevchain : List.Chain'
            (fun u v : K × A => ltb v.1 u.1 = false)
            (x0 :: x1 :: rest.take k).reverse := by
          rw [List.chain'_reverse]
          refine List.Chain'.imp ?_ hchainF
          intro a b hab
          exact hasym _ _ hab
        have hsorted : SortedAsc ltb (x0 :: x1 :: rest.take k).reverse :=
          chainRel_pairwise htransR _ hrevchain
        have hPrun : ∀ y ∈ (x0 :: x1 :: rest.take k).reverse, P y.1 := by
          intro y hy
          rw [List.mem_reverse] at hy
          rcases List.mem_cons.mp hy with rfl | hy'
          · exact hP0
          · rcases List.mem_cons.mp hy' with rfl | hy''
            · exact hP1
            · exact hPr y (List.mem_of_mem_take hy'')
        have hPdrop : ∀ y ∈ rest.drop k, P y.1 :=
          fun y hy => hPr y (List.mem_of_mem_drop hy)
        unfold listsortSmall
        rw [if_neg hlnot, hcr]
        show binsortLoop ltq
            (((x0 :: x1 :: rest.take k).reverse ++ rest.drop k).take (2 + k))
            (((x0 :: x1 :: rest.take k).reverse ++ rest.drop k).drop (2 + k))
          = (true, (x0 :: x1 :: rest).foldl (fun acc x => sInsert ltb x acc) [])
        have htl : (((x0 :: x1 :: rest.take k).reverse
            ++ rest.drop k).take (2 + k)) = (x0 :: x1 :: rest.take k).reverse := by
          rw [List.take_left']
          rw [List.length_reverse, hlenrun]
        have hdl : (((x0 :: x1 :: rest.take k).reverse
            ++ rest.drop k).drop (2 + k)) = rest.drop k := by
          rw [List.drop_left']
          rw [List.length_reverse, hlenrun]
        rw [htl, hdl]
        rw [binsortLoop_spec hq hntr hlt hasym (rest.drop k)
          ((x0 :: x1 :: rest.take k).reverse) hsorted hPrun hPdrop]
        have hfold0 : (x0 :: x1 :: rest.take k).foldl
            (fun acc x => sInsert ltb x acc) []
            = (x0 :: x1 :: rest.take k).reverse := by
          simp only [List.foldl_cons]
          have h1 : sInsert ltb x0 ([] : List (K × A)) = [x0] := rfl
          have h2 : sInsert ltb x1 [x0] = x1 :: [x0] := by
            simp [sInsert, hbx]
          rw [show (sInsert ltb x1 (sInsert ltb x0 []))
            = x1 :: x0 :: [] from by rw [h1, h2]]
          rw [foldl_sInsert_desc (rest.take k) x1 [x0] hchain]
          simp
        rw [← hfold0, ← List.foldl_append, List.cons_append,
          List.cons_append, List.take_append_drop]
      · -- weakly ascending initial run: the array is untouched
        have hbx' : ltb x1.1 x0.1 = false := Bool.eq_false_iff.mpr hbx
        obtain ⟨k, hrun, hk, hchain⟩ := ascExtend_spec hq rest x1 hP1 hPr
        have hcr : countRun ltq (x0 :: x1 :: rest)
            = some (2 + k, x0 :: x1 :: rest) := by
          show (match ltq x1.1 x0.1 with
            | none => none
            | some true =>
                (descExtend ltq x1.1 rest).map fun k =>
                  (2 + k, ((x0 :: x1 :: rest).take (2 + k)).reverse
                    ++ (x0 :: x1 :: rest).drop (2 + k))
            | some false =>
                (ascExtend ltq x1.1 rest).map fun k =>
                  (2 + k, x0 :: x1 :: rest)) = _
          rw [hcq, hbx', hrun]
          rfl
        have htake : (x0 :: x1 :: rest).take (2 + k)
            = x0 :: x1 :: rest.take k := by
          simp [List.take_succ_cons, Nat.add_comm 2 k]
        have hdrop : (x0 :: x1 :: rest).drop (2 + k) = rest.drop k := by
          simp [List.drop_succ_cons, Nat.add_comm 2 k]
        have hchainF : List.Chain' (fun u v : K × A => ltb v.1 u.1 = false)
            (x0 :: x1 :: rest.take k) :=
          List.chain'_cons.mpr ⟨hbx', hchain⟩
        have hsorted' : (x0 :: x1 :: rest.take k).Pairwise
            (fun u v : K × A => ltb v.1 u.1 = false) :=
          chainRel_pairwise htransR _ hchainF
        have hPrun : ∀ y ∈ x0 :: x1 :: rest.take k, P y.1 := by
          intro y hy
          rcases List.mem_cons.mp hy with rfl | hy'
          · exact hP0
          · rcases List.mem_cons.mp hy' with rfl | hy''
            · exact hP1
            · exact hPr y (List.mem_of_mem_take hy'')
        have hPdrop : ∀ y ∈ rest.drop k, P y.1 :=
          fun y hy => hPr y (List.mem_of_mem_drop hy)
        unfold listsortSmall
        rw [if_neg hlnot, hcr]
        show binsortLoop ltq ((x0 :: x1 :: rest).take (2 + k))
            ((x0 :: x1 :: rest).drop (2 + k))
          = (true, (x0 :: x1 :: rest).foldl (fun acc x => sInsert ltb x acc) [])
        rw [htake, hdrop]
        rw [binsortLoop_spec hq hntr hlt hasym (rest.drop k)
          (x0 :: x1 :: rest.take k) hsorted' hPrun hPdrop]
        rw [← foldl_sInsert_sorted hsorted', ← List.foldl_append,
          List.cons_append, List.cons_append, List.take_append_drop]

/-- Folding stable insertions always yields a sorted list. -/
theorem foldr_sInsert_sorted {ltb : K → K → Bool}
    (hlt : ∀ a b c : K, ltb a b = true → ltb c b = false → ltb a c = true)
    (hasym : ∀ a b : K, ltb a b = true → ltb b a = false)
    (l : List (K × A)) :
    SortedAsc ltb (l.foldr (sInsert ltb) []) := by
  induction l with
  | nil => exact List.Pairwise.nil
  | cons x tl ih => exact sInsert_sorted ltb hlt hasym ih

/-- Membership in the fold of stable insertions. -/
theorem mem_foldr_sInsert {ltb : K → K → Bool} {z : K × A} :
    ∀ {l : List (K × A)}, z ∈ l.foldr (sInsert ltb) [] → z ∈ l := by
  intro l
  induction l with
  | nil => intro h; exact absurd h (List.not_mem_nil z)
  | cons x tl ih =>
      intro h
      rcases (mem_sInsert ltb).mp h with rfl | h'
      · exact List.mem_cons_self _ _
      · exact List.mem_cons_of_mem _ (ih h')

/-- Reversing a stable ascending insertion into a sorted list is the
stable descending insertion into the reversed list. -/
theorem reverse_sInsert {ltb : K → K → Bool}
    (hlt : ∀ a b c : K, ltb a b = true → ltb c b = false → ltb a c = true)
    {x : K × A} :
    ∀ {m : List (K × A)}, SortedAsc ltb m →
    (sInsert ltb x m).reverse = sInsertDesc ltb x m.reverse := by
  intro m
  induction m with
  | nil => intro _; rfl
  | cons y ys ih =>
      intro hs
      obtain ⟨hy, hys⟩ := List.pairwise_cons.mp hs
      by_cases hxy : ltb x.1 y.1 = true
      · have hall : ∀ z ∈ (y :: ys).reverse, ltb x.1 z.1 = true := by
          intro z hz
          rw [List.mem_reverse] at hz
          rcases List.mem_cons.mp hz with rfl | hz'
          · exact hxy
          · exact hlt _ _ _ hxy (hy z hz')
        rw [sInsertDesc_append_of_all ltb hall]
        simp only [sInsert, if_pos hxy]
        simp
      · have hxy' : ltb x.1 y.1 = false := Bool.eq_false_iff.mpr hxy
        simp only [sInsert, if_neg hxy]
        rw [List.reverse_cons, List.reverse_cons,
          sInsertDesc_append_last ltb hxy', ih hys]

/-- The reversed ascending fold is the spec's stable descending sort. -/
theorem reverse_foldr_sInsert {ltb : K → K → Bool}
    (hlt : ∀ a b c : K, ltb a b = true → ltb c b = false → ltb a c = true)
    (hasym : ∀ a b : K, ltb a b = true → ltb b a = false)
    (l : List (K × A)) :
    (l.foldr (sInsert ltb) []).reverse = specSortDesc ltb l := by
  induction l with
  | nil => rfl
  | cons x tl ih =>
      show (sInsert ltb x (tl.foldr (sInsert ltb) [])).reverse
        = sInsertDesc ltb x (specSortDesc ltb tl)
      rw [reverse_sInsert hlt (foldr_sInsert_sorted hlt hasym tl), ih]

/-- Under defined comparisons, `list.sort(key=…, reverse=True)` succeeds
and equals the spec's stable descending insertion sort of the decorated
list. -/
theorem pySortKeyRev_spec (ltq : K → K → Option Bool) (ltb : K → K → Bool)
    (P : K → Prop)
    (hq : ∀ a b, P a → P b → ltq a b = some (ltb a b))
    (hntr : ∀ a b c : K, ltb a b = false → ltb b c = false → ltb a c = false)
    (hlt : ∀ a b c : K, ltb a b = true → ltb c b = false → ltb a c = true)
    (hasym : ∀ a b : K, ltb a b = true → ltb b a = false)
    (key : A → K) (l : List A) (hP : ∀ a ∈ l, P (key a)) :
    pySortKeyRev ltq key l =
      (true, (specSortDesc ltb (l.map fun a => (key a, a))).map Prod.snd) := by
  unfold pySortKeyRev
  have hPk : ∀ y ∈ (l.map fun a => (key a, a)).reverse, P y.1 := by
    intro y hy
    rw [List.mem_reverse, List.mem_map] at hy
    obtain ⟨a, ha, rfl⟩ := hy
    exact hP a ha
  show ((listsortSmall ltq ((l.map fun a => (key a, a)).reverse)).1,
      (((listsortSmall ltq ((l.map fun a => (key a, a)).reverse)).2).reverse).map
        Prod.snd)
    = (true, (specSortDesc ltb (l.map fun a => (key a, a))).map Prod.snd)
  rw [listsortSmall_spec hq hntr hlt hasym _ hPk]
  rw [List.foldl_reverse]
  rw [show (fun (x : K × A) (y : List (K × A)) =>
      (fun acc z => sInsert ltb z acc) y x) = sInsert ltb from rfl]
  rw [reverse_foldr_sInsert hlt hasym]

end SortEquiv

/-- The spec's sort is non-increasing in the parsed key. -/
theorem specSortDesc_sorted {K A : Type} (ltb : K → K → Bool)
    (hlt : ∀ a b c : K, ltb a b = true → ltb c b = false → ltb a c = true)
    (hasym : ∀ a b : K, ltb a b = true → ltb b a = false)
    (l : List (K × A)) :
    (specSortDesc ltb l).Pairwise
      (fun u v : K × A => ltb u.1 v.1 = false) := by
  rw [← reverse_foldr_sInsert hlt hasym]
  rw [List.pairwise_reverse]
  exact foldr_sInsert_sorted hlt hasym l

/-- C5: when every comparison is defined — all parsed keys naive, or all
aware with a single offset, which covers every homogeneous feed batch —
the ranking step succeeds and equals the specification ranker: the stable
descending insertion sort by `parse_date` of the raw `pubDate`, truncated
to `maxCount`; ties keep their original relative order by construction of
`sInsertDesc`.  The result is a permutation of the input and
non-increasing in the parsed key, and `save_articles` ships exactly the
spec ranking truncated to its hard-coded cap of 30.  The length bound 64
is the regime in which the CPython model is faithful (a run holds at most
40 articles). -/
theorem claim_C5_rank_spec (env : Env) (articles : List Article)
    (maxCount : Nat) (_hlen : articles.length ≤ 64)
    (hcls : (∀ a ∈ articles, (sortKey env a).tz = none) ∨
            (∃ off : Int, ∀ a ∈ articles, (sortKey env a).tz = some off)) :
    rank env articles maxCount =
      ((specSortDesc dtTupleLt (articles.map fun a => (sortKey env a, a))).map
        Prod.snd).take maxCount ∧
    (pySortKeyRev pyLt (sortKey env) articles).1 = true ∧
    ((specSortDesc dtTupleLt (articles.map fun a => (sortKey env a, a))).map
      Prod.snd).Perm articles ∧
    (specSortDesc dtTupleLt (articles.map fun a => (sortKey env a, a))).Pairwise
      (fun u v => dtTupleLt u.1 v.1 = false) ∧
    (articles ≠ [] → save_articles env articles =
      some { generated_at := isoformatUTC env.now
             article_count :=
               (((specSortDesc dtTupleLt
                 (articles.map fun a => (sortKey env a, a))).map
                 Prod.snd).take 30).length
             articles :=
               ((specSortDesc dtTupleLt
                 (articles.map fun a => (sortKey env a, a))).map
                 Prod.snd).take 30 }) := by
  have key : pySortKeyRev pyLt (sortKey env) articles =
      (true, (specSortDesc dtTupleLt
        (articles.map fun a => (sortKey env a, a))).map Prod.snd) := by
    rcases hcls with h | ⟨off, h⟩
    · exact pySortKeyRev_spec pyLt dtTupleLt (fun k => k.tz = none)
        (fun a b ha hb => by simp [pyLt, ha, hb])
        (fun a b c h1 h2 => dtTupleLt_not_trans h1 h2)
        (fun a b c h1 h2 => dtTupleLt_lt_of_lt_of_not h1 h2)
        (fun a b h1 => dtTupleLt_asymm h1)
        (sortKey env) articles h
    · exact pySortKeyRev_spec pyLt dtTupleLt (fun k => k.tz = some off)
        (fun a b ha hb => by simp [pyLt, ha, hb])
        (fun a b c h1 h2 => dtTupleLt_not_trans h1 h2)
        (fun a b c h1 h2 => dtTupleLt_lt_of_lt_of_not h1 h2)
        (fun a b h1 => dtTupleLt_asymm h1)
        (sortKey env) articles h
  refine ⟨?_, ?_, ?_, ?_, ?_⟩
  · unfold rank
    rw [key]
  · rw [key]
  · have hperm := pySortKeyRev_perm pyLt (sortKey env) articles
    rw [key] at hperm
    exact hperm
  · exact specSortDesc_sorted dtTupleLt
      (fun a b c h1 h2 => dtTupleLt_lt_of_lt_of_not h1 h2)
      (fun a b h1 => dtTupleLt_asymm h1) _
  · intro hne
    unfold save_articles
    rw [if_neg hne, key]

/-- Article with a title, used to watch tie stability. -/
def artT (t pd : String) : Article := ⟨t, "", "", pd, "", none⟩

/-- The spec's example articles, dated Jan 1 / Jan 3 / Jan 2 of 2025. -/
def ex3 : List Article :=
  [artD "2025-01-01 00:00:00", artD "2025-01-03 00:00:00",
   artD "2025-01-02 00:00:00"]

/-- Witness for C5: on the spec's example with `maxCount = 2` the ranker
returns the Jan-3 and Jan-2 articles in that order, and equal timestamps
keep their original relative order. -/
theorem claim_C5_rank_spec_witness :
    rank envX ex3 2 =
      ((specSortDesc dtTupleLt (ex3.map fun a => (sortKey envX a, a))).map
        Prod.snd).take 2 ∧
    rank envX ex3 2 =
      [artD "2025-01-03 00:00:00", artD "2025-01-02 00:00:00"] ∧
    rank envX [artT "A" "2025-01-03 00:00:00", artT "B" "2025-01-01 00:00:00",
      artT "C" "2025-01-03 00:00:00"] 30 =
      [artT "A" "2025-01-03 00:00:00", artT "C" "2025-01-03 00:00:00",
       artT "B" "2025-01-01 00:00:00"] := by
  refine ⟨(claim_C5_rank_spec envX ex3 2 (by decide)
    (Or.inl (by decide))).1, by decide, by decide⟩
